import Mathlib

/-!
Shallow embedding of the tile-dispatch coordinator and frame accumulator of
the `rust-workshop-server` repository (src/main.rs, src/server_state.rs,
src/output.rs, src/utils.rs, src/protocol.rs, src/client_id.rs).

Modelling conventions:
* Machine integers (`u64`, `u32`, `usize`) are `Nat`; `u32` arithmetic that
  can wrap is written with an explicit `% 2 ^ 32`.
* Floating point values (`f32`/`f64`) are modelled as exact rationals `ℚ`;
  the `sin_cos` primitive invoked by `regenerate_scene` is kept abstract as a
  pair of function parameters, since the code treats it as a black box.
* `std::time::Instant` is modelled as a `Nat` tick count in seconds (the only
  duration the scheduler uses is the constant 5-second tile deadline).
* `HashMap` is modelled as an association list with the key-uniqueness
  invariant carried by the reachable-state predicates.
* Channel sends performed by the scheduler are modelled as an explicit effect
  trace in program order, so that ordering claims about responses and
  emissions are statable; the channel operations performed on the bounded
  output channel are recorded as `ChanOp` values.
* Fallible operations (`Vec` indexing / `.unwrap()` in the source) are
  modelled with `Option`; `none` corresponds to a panic of the source.
-/

namespace RayServer

/-- main.rs: `const TILE_SIZE: usize = 128;` -/
def TILE_SIZE : Nat := 128

/-- main.rs: `const TILES_X: usize = 8;` -/
def TILES_X : Nat := 8

/-- main.rs: `const TILES_Y: usize = 6;` -/
def TILES_Y : Nat := 6

/-- protocol.rs: `Vec3 { x, y, z }` (floats modelled as ℚ). -/
structure Vec3 where
  x : ℚ
  y : ℚ
  z : ℚ
deriving DecidableEq, Repr

/-- main.rs: `SceneElement { x, y, z, r }` loaded from the scene CSV. -/
structure SceneElement where
  x : ℚ
  y : ℚ
  z : ℚ
  r : ℚ
deriving DecidableEq, Repr

/-- protocol.rs: `Sphere { center, radius }`. -/
structure Sphere where
  center : Vec3
  radius : ℚ
deriving DecidableEq, Repr

/-- protocol.rs: `Scene { frame, spheres }`. -/
structure Scene where
  frame : Nat
  spheres : List Sphere
deriving DecidableEq, Repr

/-- protocol.rs: `#[derive(Default)]` on `Scene`: frame 0, no spheres. -/
def Scene.default : Scene := ⟨0, []⟩

/-- protocol.rs: `Result { hit, color }` returned by a worker for one ray. -/
structure Result where
  hit : Bool
  color : Option Vec3
deriving DecidableEq, Repr

/-- client_id.rs: `ClientId(u64)`. -/
abbrev ClientId := Nat

/-- server_state.rs: `TileAddr { frame, x, y }`. -/
structure TileAddr where
  frame : Nat
  x : Nat
  y : Nat
deriving DecidableEq, Repr

/-- server_state.rs: `TileAddr::rays_index`: `y * TILES_X + x`. -/
def TileAddr.rays_index (a : TileAddr) : Nat := a.y * TILES_X + a.x

/-- server_state.rs: `InFlightTile { client_id, addr, expires, requested_at }`. -/
structure InFlightTile where
  client_id : ClientId
  addr : TileAddr
  expires : Nat
  requested_at : Nat
deriving DecidableEq, Repr

/-- server_state.rs: per-client scheduler record (`ClientState`); the
outbound channel is identified by the client id in this model, so only the
name is kept. -/
structure ClientState where
  name : String
deriving DecidableEq, Repr

/-- server_state.rs: the `ServerState` scheduler state.  `rx`/`tx` are the
event channels (modelled by the step function's inputs and effect trace);
`all_rays` is a fixed table addressed by `rays_index`, so responses carry the
index instead of the ray list. -/
structure ServerState where
  clients : List (ClientId × ClientState)
  pending_tiles : List TileAddr
  in_flight_tiles : List InFlightTile
  pending_frame : Nat
  current_frame : Nat
  scene : Scene
  random_displacements : List Vec3
  scene_elements : List SceneElement
deriving DecidableEq, Repr

/-- server_state.rs, `ServerState::new`: empty maps and queues,
`pending_frame = 1`, `current_frame = 0`, default scene.  The random
displacements are drawn from a thread-local RNG at startup, so they are a
parameter of the initial state. -/
def initState (elems : List SceneElement) (disps : List Vec3) : ServerState :=
  { clients := []
    pending_tiles := []
    in_flight_tiles := []
    pending_frame := 1
    current_frame := 0
    scene := Scene.default
    random_displacements := disps
    scene_elements := elems }

/-- server_state.rs, `pop_tile_addr`, refill loop (lines 125-133): the tiles
of one whole frame `f` in row-major order (`y` outer, `x` inner). -/
def rowMajorFrame (f : Nat) : List TileAddr :=
  (List.range TILES_Y).bind fun y => (List.range TILES_X).map fun x => ⟨f, x, y⟩

/-- server_state.rs, `ServerState::pop_tile_addr`: pop the front pending
tile; if the queue is empty, append a full frame (row-major) with
`frame = pending_frame`, increment `pending_frame` and recurse.  The
recursive call always finds a non-empty queue (a frame has
`TILES_X * TILES_Y = 48 > 0` tiles), so it is inlined as a head-pop here;
the final branch is dead code. -/
def pop_tile_addr (s : ServerState) : TileAddr × ServerState :=
  match s.pending_tiles with
  | addr :: rest => (addr, { s with pending_tiles := rest })
  | [] =>
    match rowMajorFrame s.pending_frame with
    | addr :: rest =>
      (addr, { s with pending_tiles := rest, pending_frame := s.pending_frame + 1 })
    | [] => (⟨0, 0, 0⟩, s)

/-- Iterated `pop_tile_addr`: the list of the first `n` popped tile
addresses together with the resulting state. -/
def popN (s : ServerState) : Nat → List TileAddr × ServerState
  | 0 => ([], s)
  | n + 1 =>
    let (a, s') := pop_tile_addr s
    let (l, s'') := popN s' n
    (a :: l, s'')

/-- Linear position of a tile address in the global handout order:
frames first, then rows, then columns. -/
def key (a : TileAddr) : Nat := a.frame * (TILES_X * TILES_Y) + a.y * TILES_X + a.x

/-- Inverse of `key` on in-range addresses. -/
def keyToAddr (k : Nat) : TileAddr :=
  ⟨k / (TILES_X * TILES_Y), k % (TILES_X * TILES_Y) % TILES_X,
    k % (TILES_X * TILES_Y) / TILES_X⟩

/-- The key of the next tile `pop_tile_addr` will return, read off the
pending-queue fields. -/
def lowKey (s : ServerState) : Nat :=
  s.pending_frame * (TILES_X * TILES_Y) - s.pending_tiles.length

/-- Pending-queue invariant established by `ServerState::new` and preserved
by `pop_tile_addr`: the queue is a suffix of the row-major tile list of
frame `pending_frame - 1`. -/
def PendInv (s : ServerState) : Prop :=
  1 ≤ s.pending_frame ∧ s.pending_tiles.length ≤ TILES_X * TILES_Y ∧
    s.pending_tiles =
      (rowMajorFrame (s.pending_frame - 1)).drop
        (TILES_X * TILES_Y - s.pending_tiles.length)

instance (s : ServerState) : Decidable (PendInv s) := by
  unfold PendInv; infer_instance

theorem rowMajorFrame_eq_map (f : Nat) :
    rowMajorFrame f =
      (List.range (TILES_X * TILES_Y)).map fun k => ⟨f, k % TILES_X, k / TILES_X⟩ := by
  rfl

theorem rowMajorFrame_length (f : Nat) : (rowMajorFrame f).length = TILES_X * TILES_Y := by
  rw [rowMajorFrame_eq_map, List.length_map, List.length_range]

theorem rowMajorFrame_get? (f k : Nat) (hk : k < TILES_X * TILES_Y) :
    (rowMajorFrame f).get? k = some ⟨f, k % TILES_X, k / TILES_X⟩ := by
  rw [rowMajorFrame_eq_map, List.get?_map, List.get?_range hk]
  rfl

theorem key_rowMajor (f k : Nat) (hk : k < TILES_X * TILES_Y) :
    key ⟨f, k % TILES_X, k / TILES_X⟩ = f * (TILES_X * TILES_Y) + k := by
  unfold key
  simp only [TILES_X, TILES_Y] at *
  omega

theorem keyToAddr_key (a : TileAddr) (hx : a.x < TILES_X) (hy : a.y < TILES_Y) :
    keyToAddr (key a) = a := by
  unfold key keyToAddr
  obtain ⟨f, x, y⟩ := a
  simp only [TILES_X, TILES_Y] at *
  simp only [TileAddr.mk.injEq]
  omega

theorem key_keyToAddr (k : Nat) : key (keyToAddr k) = k := by
  unfold key keyToAddr
  simp only [TILES_X, TILES_Y]
  omega

theorem keyToAddr_inRange (k : Nat) :
    (keyToAddr k).x < TILES_X ∧ (keyToAddr k).y < TILES_Y := by
  unfold keyToAddr
  simp only [TILES_X, TILES_Y]
  omega

theorem pop_tile_addr_empty (s : ServerState) (h : s.pending_tiles = []) :
    pop_tile_addr s =
      (⟨s.pending_frame, 0, 0⟩,
        { s with pending_tiles := (rowMajorFrame s.pending_frame).drop 1,
                 pending_frame := s.pending_frame + 1 }) := by
  have hrow : rowMajorFrame s.pending_frame =
      ⟨s.pending_frame, 0, 0⟩ :: (rowMajorFrame s.pending_frame).drop 1 := by
    rw [rowMajorFrame_eq_map]
    rfl
  unfold pop_tile_addr
  rw [h]
  conv_lhs => rw [hrow]

theorem pop_tile_addr_cons (s : ServerState) (a : TileAddr) (rest : List TileAddr)
    (h : s.pending_tiles = a :: rest) :
    pop_tile_addr s = (a, { s with pending_tiles := rest }) := by
  unfold pop_tile_addr
  rw [h]

/-- Single-step specification of `pop_tile_addr` under the pending-queue
invariant: the invariant is preserved, the popped tile is the one at
position `lowKey`, and `lowKey` advances by one. -/
theorem pop_tile_addr_spec (s : ServerState) (h : PendInv s) :
    PendInv (pop_tile_addr s).2 ∧
      (pop_tile_addr s).1 = keyToAddr (lowKey s) ∧
      lowKey (pop_tile_addr s).2 = lowKey s + 1 ∧
      (pop_tile_addr s).2.clients = s.clients ∧
      (pop_tile_addr s).2.in_flight_tiles = s.in_flight_tiles ∧
      (pop_tile_addr s).2.current_frame = s.current_frame ∧
      (pop_tile_addr s).2.scene = s.scene := by
  obtain ⟨h1, h2, h3⟩ := h
  by_cases hemp : s.pending_tiles = []
  · -- refill branch
    rw [pop_tile_addr_empty s hemp]
    have hlow : lowKey s = s.pending_frame * (TILES_X * TILES_Y) := by
      unfold lowKey
      rw [hemp]
      simp
    refine ⟨?_, ?_, ?_, rfl, rfl, rfl, rfl⟩
    · refine ⟨by show 1 ≤ s.pending_frame + 1; omega, ?_, ?_⟩
      · simp only [List.length_drop, rowMajorFrame_length]
        omega
      · simp only [List.length_drop, rowMajorFrame_length, Nat.add_sub_cancel]
        have : TILES_X * TILES_Y - (TILES_X * TILES_Y - 1) = 1 := by
          simp only [TILES_X, TILES_Y]
        rw [this]
    · rw [hlow]
      unfold keyToAddr
      simp only [TileAddr.mk.injEq, TILES_X, TILES_Y]
      omega
    · rw [hlow]
      unfold lowKey
      simp only [List.length_drop, rowMajorFrame_length]
      simp only [TILES_X, TILES_Y]
      omega
  · -- non-empty branch
    obtain ⟨a, rest, hcons⟩ := List.exists_cons_of_ne_nil hemp
    rw [pop_tile_addr_cons s a rest hcons]
    have hlen : rest.length + 1 ≤ TILES_X * TILES_Y := by
      rw [hcons] at h2; simpa using h2
    -- position of the head in the row-major list of frame pending_frame - 1
    set k := TILES_X * TILES_Y - (rest.length + 1) with hk
    have hkle : k < TILES_X * TILES_Y := by omega
    have hdrop : (rowMajorFrame (s.pending_frame - 1)).drop k = a :: rest := by
      rw [← hcons, h3, hcons]
      simp only [List.length_cons]
    have hget : (rowMajorFrame (s.pending_frame - 1)).get? k = some a := by
      have := List.get?_drop (rowMajorFrame (s.pending_frame - 1)) k 0
      rw [hdrop] at this
      simpa using this.symm
    have ha : a = ⟨s.pending_frame - 1, k % TILES_X, k / TILES_X⟩ := by
      have := rowMajorFrame_get? (s.pending_frame - 1) k hkle
      rw [hget] at this
      exact Option.some_injective _ this
    have hdrop' : rest = (rowMajorFrame (s.pending_frame - 1)).drop (k + 1) := by
      have h' := congrArg (List.drop 1) hdrop
      rw [List.drop_drop] at h'
      simp only [List.drop_one, List.tail_cons] at h'
      rw [← h']
    have hlow : lowKey s = (s.pending_frame - 1) * (TILES_X * TILES_Y) + k := by
      unfold lowKey
      rw [hcons]
      simp only [List.length_cons, hk]
      simp only [TILES_X, TILES_Y] at hlen ⊢
      omega
    refine ⟨⟨h1, ?_, ?_⟩, ?_, ?_, rfl, rfl, rfl, rfl⟩
    · simp only
      omega
    · simp only
      rw [hdrop']
      congr 1
      simp only [List.length_drop, rowMajorFrame_length]
      omega
    · rw [ha, hlow]
      unfold keyToAddr
      simp only [TileAddr.mk.injEq, TILES_X, TILES_Y] at hkle ⊢
      omega
    · rw [hlow]
      unfold lowKey
      simp only [hcons, List.length_cons]
      simp only [TILES_X, TILES_Y] at hk hlen ⊢
      omega

/-- The first `n` tiles popped from a state satisfying the pending-queue
invariant are the tiles at positions `lowKey s, lowKey s + 1, ...` in the
global handout order, and the invariant persists. -/
theorem popN_spec (n : Nat) :
    ∀ s : ServerState, PendInv s →
      (popN s n).1 = (List.range n).map (fun i => keyToAddr (lowKey s + i)) ∧
        PendInv (popN s n).2 ∧ lowKey (popN s n).2 = lowKey s + n := by
  induction n with
  | zero => intro s hs; exact ⟨rfl, hs, rfl⟩
  | succ n ih =>
    intro s hs
    obtain ⟨hinv, hhead, hlow, -⟩ := pop_tile_addr_spec s hs
    obtain ⟨ih1, ih2, ih3⟩ := ih (pop_tile_addr s).2 hinv
    have hpop : popN s (n + 1) =
        ((pop_tile_addr s).1 :: (popN (pop_tile_addr s).2 n).1,
          (popN (pop_tile_addr s).2 n).2) := by
      rfl
    rw [hpop]
    refine ⟨?_, ih2, by simp only [ih3, hlow]; omega⟩
    rw [List.range_succ_eq_map, List.map_cons, List.map_map]
    simp only [Nat.add_zero]
    rw [hhead, ih1, hlow]
    refine congrArg (keyToAddr (lowKey s) :: ·) ?_
    apply List.map_congr_left
    intro i _
    simp only [Function.comp_apply, Nat.succ_eq_add_one]
    congr 1
    omega

/-- The address popped at global position `i` (starting from the initial
state, whose first pop has position `TILES_X * TILES_Y`). -/
theorem popN_initState (elems : List SceneElement) (disps : List Vec3) (n : Nat) :
    (popN (initState elems disps) n).1 =
      (List.range n).map (fun i => keyToAddr (TILES_X * TILES_Y + i)) := by
  have hinv : PendInv (initState elems disps) := by
    refine ⟨le_refl 1, by simp [initState], ?_⟩
    simp [initState, List.drop_eq_nil_of_le, rowMajorFrame_length]
  have hlow : lowKey (initState elems disps) = TILES_X * TILES_Y := by
    simp [lowKey, initState]
  have := (popN_spec n (initState elems disps) hinv).1
  rw [hlow] at this
  exact this

theorem keyToAddr_injective : Function.Injective keyToAddr := by
  intro i j h
  have := congrArg key h
  rwa [key_keyToAddr, key_keyToAddr] at this

theorem getD_map_range (f : Nat → TileAddr) (n i : Nat) (hi : i < n) (d : TileAddr) :
    (((List.range n).map f).getD i d) = f i := by
  rw [List.getD_eq_getElem?_getD, List.getElem?_map, List.getElem?_range hi]
  rfl

theorem keyToAddr_frame (k : Nat) : (keyToAddr k).frame = k / (TILES_X * TILES_Y) := rfl

/-- C1: over any sequence of `pop_tile_addr` calls from the initial state, no
`(frame, x, y)` triple is returned twice; whenever the pending queue is empty,
exactly one full frame of `TILES_X * TILES_Y` tiles is appended in row-major
order with `frame = pending_frame` and `pending_frame` is incremented by one;
and the handed-out frame numbers are non-decreasing, so every tile of frame
`F` is returned before any tile of frame `F + 1`. -/
theorem pop_tile_addr_no_duplicates (elems : List SceneElement) (disps : List Vec3)
    (n : Nat) :
    ((popN (initState elems disps) n).1).Nodup ∧
      (∀ s : ServerState, s.pending_tiles = [] →
        (pop_tile_addr s).1 :: (pop_tile_addr s).2.pending_tiles =
            rowMajorFrame s.pending_frame ∧
          (pop_tile_addr s).2.pending_frame = s.pending_frame + 1) ∧
      (∀ i j : Nat, i ≤ j → j < n →
        ((popN (initState elems disps) n).1.getD i ⟨0, 0, 0⟩).frame ≤
          ((popN (initState elems disps) n).1.getD j ⟨0, 0, 0⟩).frame) ∧
      (∀ F i j : Nat, i < n → j < n →
        ((popN (initState elems disps) n).1.getD i ⟨0, 0, 0⟩).frame = F →
        ((popN (initState elems disps) n).1.getD j ⟨0, 0, 0⟩).frame = F + 1 →
        i < j) := by
  have hclosed := popN_initState elems disps n
  have hmono : ∀ i j : Nat, i ≤ j → j < n →
      ((popN (initState elems disps) n).1.getD i ⟨0, 0, 0⟩).frame ≤
        ((popN (initState elems disps) n).1.getD j ⟨0, 0, 0⟩).frame := by
    intro i j hij hj
    rw [hclosed, getD_map_range _ n i (lt_of_le_of_lt hij hj),
      getD_map_range _ n j hj, keyToAddr_frame, keyToAddr_frame]
    exact Nat.div_le_div_right (by omega)
  refine ⟨?_, ?_, hmono, ?_⟩
  · rw [hclosed]
    exact (List.nodup_range n).map fun i j h =>
      by simpa using keyToAddr_injective h
  · intro s hs
    rw [pop_tile_addr_empty s hs]
    have hrow : rowMajorFrame s.pending_frame =
        ⟨s.pending_frame, 0, 0⟩ :: (rowMajorFrame s.pending_frame).drop 1 := by
      rw [rowMajorFrame_eq_map]
      rfl
    exact ⟨hrow.symm, rfl⟩
  · intro F i j hi hj hFi hFj
    by_contra hcon
    have hji : j ≤ i := by omega
    have := hmono j i hji hi
    omega

/-- Witness for C1: from the initial (empty-queue) state, the first pop
appends exactly frame 1 in row-major order and advances `pending_frame`
to 2. -/
theorem pop_tile_addr_no_duplicates_witness :
    (pop_tile_addr (initState [] [])).1 ::
        (pop_tile_addr (initState [] [])).2.pending_tiles = rowMajorFrame 1 ∧
      (pop_tile_addr (initState [] [])).2.pending_frame = 2 :=
  (pop_tile_addr_no_duplicates [] [] 0).2.1 (initState [] []) rfl

/-! ## The scheduler event loop (server_state.rs, `ServerState::run`) -/

/-- protocol.rs: `Request`. -/
inductive Request where
  | reserveRays
  | submitResults (results : List Result)
  | setName (name : String)
deriving DecidableEq, Repr

/-- protocol.rs: `Response`.  `ReserveRays` carries
`all_rays[addr.rays_index()]` — identified here by the index into the fixed
ray table, which is precomputed once and shared by reference — and the
published scene. -/
inductive Response where
  | reserveRays (rays_index : Nat) (scene : Scene)
  | submitResults
  | setName
deriving DecidableEq, Repr

/-- main.rs: `ClientEventPayload`; the responder channel carried by
`Connected` is identified by the client id in this model. -/
inductive ClientEventPayload where
  | connected
  | disconnected
  | request (r : Request)
deriving DecidableEq, Repr

/-- main.rs: `ClientEvent { from_id, payload }`. -/
structure ClientEvent where
  from_id : ClientId
  payload : ClientEventPayload
deriving DecidableEq, Repr

/-- output.rs: `BlitTileEvent`. -/
structure BlitTileEvent where
  client_id : ClientId
  addr : TileAddr
  name : String
  pixels : List Vec3
  time : ℚ
deriving DecidableEq, Repr

/-- Primitive operations on the bounded scheduler→accumulator channel, in
program order. -/
inductive ChanOp where
  | trySendOk (e : BlitTileEvent)
  | trySendFull
  | trySendDisconnected
  | blockingSend (e : BlitTileEvent)
  | logWarning (channel : String)
deriving DecidableEq, Repr

/-- State of the bounded output channel at the moment of a send. -/
inductive ChanState where
  | ok
  | full
  | disconnected
deriving DecidableEq, Repr

/-- utils.rs, `SyncSenderExt::send_realtime`: non-blocking `try_send` first;
on `Full`, log a warning naming the channel and fall back to a blocking
`send`; on `Disconnected`, return `Err`.  Returns the channel-operation
trace and whether the call returned `Ok`. -/
def send_realtime (chan : ChanState) (item : BlitTileEvent) (channel : String) :
    List ChanOp × Bool :=
  match chan with
  | .ok => ([.trySendOk item], true)
  | .full => ([.trySendFull, .logWarning channel, .blockingSend item], true)
  | .disconnected => ([.trySendDisconnected], false)

/-- server_state.rs line 239: the scheduler emits the `BlitTile` event with a
plain `mpsc::SyncSender::send` — a single blocking send, whatever the state
of the channel. -/
def sendBlit (_chan : ChanState) (e : BlitTileEvent) : List ChanOp :=
  [ChanOp.blockingSend e]

/-- Observable actions of one scheduler loop iteration, in program order. -/
inductive Effect where
  | response (cid : ClientId) (r : Response)
  | regen
  | output (ops : List ChanOp)
deriving DecidableEq, Repr

/-- `HashMap` lookup, modelled on an association list. -/
def alGet {β : Type} : List (ClientId × β) → ClientId → Option β
  | [], _ => none
  | (k', v) :: rest, k => if k' = k then some v else alGet rest k

/-- `HashMap::get_mut` followed by a mutation of the entry. -/
def alModify {β : Type} (l : List (ClientId × β)) (k : ClientId) (f : β → β) :
    List (ClientId × β) :=
  l.map fun p => if p.1 = k then (p.1, f p.2) else p

/-- `HashMap::remove`. -/
def alRemove {β : Type} (l : List (ClientId × β)) (k : ClientId) :
    List (ClientId × β) :=
  l.filter fun p => p.1 ≠ k

/-- `Vec::iter().position(pred)` followed by `remove(idx)`: the first
element satisfying the predicate together with the remaining list. -/
def removeFirst (p : InFlightTile → Bool) :
    List InFlightTile → Option (InFlightTile × List InFlightTile)
  | [] => none
  | t :: rest =>
    if p t then some (t, rest)
    else
      match removeFirst p rest with
      | none => none
      | some (u, l) => some (u, t :: l)

/-- server_state.rs, `disconnect_client`: remove the client record and purge
every in-flight tile belonging to it. -/
def disconnect_client (s : ServerState) (cid : ClientId) : ServerState :=
  { s with clients := alRemove s.clients cid,
           in_flight_tiles := s.in_flight_tiles.filter fun t => t.client_id ≠ cid }

/-- The `f64::sin_cos` primitive used by `regenerate_scene`, kept abstract
(the code treats it as a black box). -/
structure TrigPrims where
  fsin : ℚ → ℚ
  fcos : ℚ → ℚ

/-- server_state.rs, `regenerate_scene`.  The source indexes
`random_displacements[i]` for `i` below `scene_elements.len()`;
`ServerState::new` allocates exactly one displacement per element, under
which invariant the `getD` default is never taken. -/
def regenerate_scene (prims : TrigPrims) (s : ServerState) : ServerState :=
  let angle : ℚ := (s.current_frame : ℚ) * 0.05
  let displacement : ℚ := 1000 / ((s.current_frame : ℚ) + 5)
  let sa := prims.fsin angle
  let ca := prims.fcos angle
  let spheres := s.scene_elements.enum.map fun p =>
    let offset := s.random_displacements.getD p.1 ⟨0, 0, 0⟩
    { center := { x := p.2.x * ca + p.2.z * sa + offset.x * displacement
                  y := p.2.y + offset.y * displacement
                  z := p.2.z * ca - p.2.x * sa + offset.z * displacement }
      radius := p.2.r : Sphere }
  { s with scene := { frame := s.current_frame, spheres := spheres } }

/-- server_state.rs, `ServerState::run`, `SubmitResults` arm: each submitted
result becomes its `color` when present, else `(1,1,1)` when `hit`, else
`(0,0,0)`. -/
def resultToPixel (r : Result) : Vec3 :=
  match r.color with
  | some color => color
  | none => if r.hit then ⟨1, 1, 1⟩ else ⟨0, 0, 0⟩

/-- One iteration of the scheduler loop either times out on the head
in-flight tile's deadline or receives a client event. -/
inductive LoopInput where
  | timeout
  | event (e : ClientEvent)
deriving DecidableEq, Repr

/-- server_state.rs, `ServerState::run`: one iteration of the scheduler
event loop.  `now` is the current instant (`Instant::now()` at processing
time, in seconds), `chan` the state of the bounded output channel.  The
effect list records responses, scene regeneration and output-channel
operations in program order.  A `timeout` can only be delivered when
`in_flight_tiles` is non-empty — with an empty queue the loop blocks in
`recv()`, which never times out (lines 170-177) — so the empty case is the
identity. -/
def step (prims : TrigPrims) (chan : ChanState) (now : Nat)
    (s : ServerState) (inp : LoopInput) : ServerState × List Effect :=
  match inp with
  | .timeout =>
    match s.in_flight_tiles with
    | t :: _ => (disconnect_client s t.client_id, [])
    | [] => (s, [])
  | .event e =>
    match e.payload with
    | .connected =>
      ({ s with clients := (e.from_id, ⟨"Unnamed"⟩) :: alRemove s.clients e.from_id }, [])
    | .disconnected => (disconnect_client s e.from_id, [])
    | .request .reserveRays =>
      let pop := pop_tile_addr s
      let addr := pop.1
      let s2 :=
        if s.current_frame < addr.frame then
          regenerate_scene prims { pop.2 with current_frame := addr.frame }
        else pop.2
      let regenEff : List Effect :=
        if s.current_frame < addr.frame then [Effect.regen] else []
      match alGet s2.clients e.from_id with
      | some _ =>
        ({ s2 with in_flight_tiles :=
              s2.in_flight_tiles ++ [⟨e.from_id, addr, now + 5, now⟩] },
          regenEff ++ [Effect.response e.from_id (.reserveRays addr.rays_index s2.scene)])
      | none => (s2, regenEff)
    | .request (.setName name) =>
      match alGet s.clients e.from_id with
      | some _ =>
        ({ s with clients := alModify s.clients e.from_id fun c => { c with name := name } },
          [Effect.response e.from_id .setName])
      | none => (s, [])
    | .request (.submitResults results) =>
      match alGet s.clients e.from_id with
      | some client =>
        match removeFirst (fun t => t.client_id == e.from_id) s.in_flight_tiles with
        | some (t, rest) =>
          let ev : BlitTileEvent :=
            { client_id := e.from_id
              time := ((now - t.requested_at : Nat) : ℚ)
              addr := t.addr
              name := client.name
              pixels := results.map resultToPixel }
          ({ s with in_flight_tiles := rest },
            [Effect.response e.from_id .submitResults, Effect.output (sendBlit chan ev)])
        | none => (s, [Effect.response e.from_id .submitResults])
      | none => (s, [])

/-- Multi-step reachability of the scheduler loop: time never runs
backwards between iterations. -/
inductive Reaches : ServerState → Nat → ServerState → Nat → Prop where
  | refl (s : ServerState) (t : Nat) : Reaches s t s t
  | step (s : ServerState) (t : Nat) (s' : ServerState) (t' : Nat)
      (prims : TrigPrims) (chan : ChanState) (inp : LoopInput) (now : Nat) :
      Reaches s t s' t' → t' ≤ now →
      Reaches s t (step prims chan now s' inp).1 now

theorem pop_tile_addr_clients (s : ServerState) :
    (pop_tile_addr s).2.clients = s.clients := by
  unfold pop_tile_addr
  split
  · rfl
  · split <;> rfl

theorem pop_tile_addr_in_flight (s : ServerState) :
    (pop_tile_addr s).2.in_flight_tiles = s.in_flight_tiles := by
  unfold pop_tile_addr
  split
  · rfl
  · split <;> rfl

theorem pop_tile_addr_current_frame (s : ServerState) :
    (pop_tile_addr s).2.current_frame = s.current_frame := by
  unfold pop_tile_addr
  split
  · rfl
  · split <;> rfl

theorem pop_tile_addr_scene (s : ServerState) :
    (pop_tile_addr s).2.scene = s.scene := by
  unfold pop_tile_addr
  split
  · rfl
  · split <;> rfl

theorem regenerate_scene_current_frame (p : TrigPrims) (s : ServerState) :
    (regenerate_scene p s).current_frame = s.current_frame := rfl

theorem regenerate_scene_frame (p : TrigPrims) (s : ServerState) :
    (regenerate_scene p s).scene.frame = s.current_frame := rfl

theorem regenerate_scene_in_flight (p : TrigPrims) (s : ServerState) :
    (regenerate_scene p s).in_flight_tiles = s.in_flight_tiles := rfl

theorem regenerate_scene_clients (p : TrigPrims) (s : ServerState) :
    (regenerate_scene p s).clients = s.clients := rfl

/-- `current_frame` never decreases across one loop iteration. -/
theorem step_current_frame_mono (prims : TrigPrims) (chan : ChanState) (now : Nat)
    (s : ServerState) (inp : LoopInput) :
    s.current_frame ≤ (step prims chan now s inp).1.current_frame := by
  cases inp with
  | timeout =>
    dsimp only [step]
    split
    · exact le_refl _
    · exact le_refl _
  | event e =>
    obtain ⟨cid, pl⟩ := e
    cases pl with
    | connected => exact le_refl _
    | disconnected => exact le_refl _
    | request r =>
      cases r with
      | reserveRays =>
        dsimp only [step]
        split
        · by_cases hc : s.current_frame < (pop_tile_addr s).1.frame
          · simp only [hc, if_true, regenerate_scene_current_frame]
            omega
          · simp only [hc, if_false, pop_tile_addr_current_frame]
            exact le_refl _
        · by_cases hc : s.current_frame < (pop_tile_addr s).1.frame
          · simp only [hc, if_true, regenerate_scene_current_frame]
            omega
          · simp only [hc, if_false, pop_tile_addr_current_frame]
            exact le_refl _
      | setName name =>
        dsimp only [step]
        split
        · exact le_refl _
        · exact le_refl _
      | submitResults results =>
        dsimp only [step]
        split
        · split
          · exact le_refl _
          · exact le_refl _
        · exact le_refl _

/-- One loop iteration preserves `scene.frame = current_frame`. -/
theorem step_scene_frame (prims : TrigPrims) (chan : ChanState) (now : Nat)
    (s : ServerState) (inp : LoopInput) (h : s.scene.frame = s.current_frame) :
    (step prims chan now s inp).1.scene.frame =
      (step prims chan now s inp).1.current_frame := by
  cases inp with
  | timeout =>
    dsimp only [step]
    split
    · exact h
    · exact h
  | event e =>
    obtain ⟨cid, pl⟩ := e
    cases pl with
    | connected => exact h
    | disconnected => exact h
    | request r =>
      cases r with
      | reserveRays =>
        dsimp only [step]
        split
        · by_cases hc : s.current_frame < (pop_tile_addr s).1.frame
          · simp only [hc, if_true, regenerate_scene_current_frame,
              regenerate_scene_frame]
          · simp only [hc, if_false, pop_tile_addr_current_frame,
              pop_tile_addr_scene]
            exact h
        · by_cases hc : s.current_frame < (pop_tile_addr s).1.frame
          · simp only [hc, if_true, regenerate_scene_current_frame,
              regenerate_scene_frame]
          · simp only [hc, if_false, pop_tile_addr_current_frame,
              pop_tile_addr_scene]
            exact h
      | setName name =>
        dsimp only [step]
        split
        · exact h
        · exact h
      | submitResults results =>
        dsimp only [step]
        split
        · split
          · exact h
          · exact h
        · exact h

theorem reaches_scene_frame (s0 : ServerState) (t0 : Nat) (s : ServerState) (t : Nat)
    (hr : Reaches s0 t0 s t) (h0 : s0.scene.frame = s0.current_frame) :
    s.scene.frame = s.current_frame := by
  induction hr with
  | refl => exact h0
  | step s' t' prims chan inp now _ _ ih => exact step_scene_frame prims chan now _ inp ih

/-- The `regen` effect is emitted at most once per iteration, and exactly
when the iteration is a `ReserveRays` request whose popped tile belongs to a
frame fresher than the prior `current_frame`. -/
theorem step_regen_effect (prims : TrigPrims) (chan : ChanState) (now : Nat)
    (s : ServerState) (inp : LoopInput) :
    (step prims chan now s inp).2.count Effect.regen ≤ 1 ∧
      (Effect.regen ∈ (step prims chan now s inp).2 ↔
        (∃ cid, inp = .event ⟨cid, .request .reserveRays⟩) ∧
          s.current_frame < (pop_tile_addr s).1.frame) := by
  cases inp with
  | timeout =>
    dsimp only [step]
    constructor
    · split <;> simp
    · split <;> simp
  | event e =>
    obtain ⟨cid, pl⟩ := e
    cases pl with
    | connected => simp [step]
    | disconnected => simp [step]
    | request r =>
      cases r with
      | reserveRays =>
        dsimp only [step]
        by_cases hc : s.current_frame < (pop_tile_addr s).1.frame
        · constructor
          · split <;> simp [hc, List.count_cons, List.count_append]
          · split <;> simp [hc]
        · constructor
          · split <;> simp [hc, List.count_cons, List.count_append]
          · split <;> simp [hc]
      | setName name =>
        constructor
        · dsimp only [step]
          split <;> simp
        · dsimp only [step]
          split <;> simp
      | submitResults results =>
        constructor
        · dsimp only [step]
          split
          · split <;> simp
          · simp
        · dsimp only [step]
          split
          · split <;> simp
          · simp

/-- C2: along every run of the event loop, `current_frame` is non-decreasing
and every reachable state publishes a scene with
`scene.frame = current_frame`; on a `ReserveRays` request the scene is
regenerated at most once, and only when the popped tile's frame is strictly
greater than the prior `current_frame`. -/
theorem scheduler_frame_invariants :
    (∀ (prims : TrigPrims) (chan : ChanState) (now : Nat) (s : ServerState)
        (inp : LoopInput),
      s.current_frame ≤ (step prims chan now s inp).1.current_frame) ∧
      (∀ (elems : List SceneElement) (disps : List Vec3) (s : ServerState) (t : Nat),
        Reaches (initState elems disps) 0 s t → s.scene.frame = s.current_frame) ∧
      (∀ (prims : TrigPrims) (chan : ChanState) (now : Nat) (s : ServerState)
          (inp : LoopInput),
        (step prims chan now s inp).2.count Effect.regen ≤ 1 ∧
          (Effect.regen ∈ (step prims chan now s inp).2 ↔
            (∃ cid, inp = .event ⟨cid, .request .reserveRays⟩) ∧
              s.current_frame < (pop_tile_addr s).1.frame)) :=
  ⟨step_current_frame_mono,
    fun _ _ s t hr => reaches_scene_frame _ 0 s t hr rfl,
    step_regen_effect⟩

/-- Witness for C2: the initial state is reachable and satisfies
`scene.frame = current_frame` (both are 0). -/
theorem scheduler_frame_invariants_witness :
    (initState [] []).scene.frame = (initState [] []).current_frame :=
  scheduler_frame_invariants.2.1 [] [] (initState [] []) 0
    (Reaches.refl (initState [] []) 0)

/-! ## In-flight queue ordering and tile reclamation (C3) -/

theorem regenerate_scene_pending_tiles (p : TrigPrims) (s : ServerState) :
    (regenerate_scene p s).pending_tiles = s.pending_tiles := rfl

theorem regenerate_scene_pending_frame (p : TrigPrims) (s : ServerState) :
    (regenerate_scene p s).pending_frame = s.pending_frame := rfl

theorem lowKey_regenerate (p : TrigPrims) (s : ServerState) :
    lowKey (regenerate_scene p s) = lowKey s := rfl

theorem lowKey_disconnect (s : ServerState) (cid : ClientId) :
    lowKey (disconnect_client s cid) = lowKey s := rfl

theorem PendInv_regenerate (p : TrigPrims) (s : ServerState) (h : PendInv s) :
    PendInv (regenerate_scene p s) := h

/-- In-flight queue sorted by expiry (non-decreasing): the head is the next
tile that can time out. -/
def SortedExpires (l : List InFlightTile) : Prop :=
  l.Pairwise fun a b => a.expires ≤ b.expires

/-- Reachable-state invariant of the scheduler at instant `t`: the pending
queue is well formed, every in-flight tile was popped strictly before the
next pending position, the in-flight queue is sorted by expiry, and every
deadline is at most `t + 5`. -/
def WF (s : ServerState) (t : Nat) : Prop :=
  PendInv s ∧ (∀ u ∈ s.in_flight_tiles, key u.addr < lowKey s) ∧
    SortedExpires s.in_flight_tiles ∧ ∀ u ∈ s.in_flight_tiles, u.expires ≤ t + 5

theorem PendInv_initState (elems : List SceneElement) (disps : List Vec3) :
    PendInv (initState elems disps) := by
  refine ⟨le_refl 1, by simp [initState], ?_⟩
  simp [initState, List.drop_eq_nil_of_le, rowMajorFrame_length]

theorem WF_initState (elems : List SceneElement) (disps : List Vec3) :
    WF (initState elems disps) 0 := by
  refine ⟨PendInv_initState elems disps, ?_, ?_, ?_⟩
  · intro u hu; simp [initState] at hu
  · simp [initState, SortedExpires]
  · intro u hu; simp [initState] at hu

theorem WF_disconnect (s : ServerState) (t now : Nat) (cid : ClientId)
    (h : WF s t) (hle : t ≤ now) : WF (disconnect_client s cid) now := by
  obtain ⟨hpend, hkeys, hsort, htime⟩ := h
  refine ⟨hpend, ?_, ?_, ?_⟩
  · intro u hu
    exact hkeys u (List.mem_of_mem_filter hu)
  · exact hsort.filter _
  · intro u hu
    have := htime u (List.mem_of_mem_filter hu)
    omega

theorem removeFirst_some (p : InFlightTile → Bool) (l : List InFlightTile)
    (t : InFlightTile) (rest : List InFlightTile)
    (h : removeFirst p l = some (t, rest)) :
    ∃ l1 l2, l = l1 ++ t :: l2 ∧ rest = l1 ++ l2 ∧
      (∀ v ∈ l1, p v = false) ∧ p t = true := by
  induction l generalizing rest with
  | nil => simp [removeFirst] at h
  | cons a l ih =>
    rw [removeFirst] at h
    by_cases hp : p a
    · rw [if_pos hp] at h
      obtain ⟨rfl, rfl⟩ : a = t ∧ l = rest := by
        have := Option.some_injective _ h
        exact ⟨congrArg Prod.fst this, congrArg Prod.snd this⟩
      exact ⟨[], l, rfl, rfl, by simp, hp⟩
    · rw [if_neg hp] at h
      cases hrec : removeFirst p l with
      | none => rw [hrec] at h; exact absurd h (by simp)
      | some r =>
        obtain ⟨u, l'⟩ := r
        rw [hrec] at h
        obtain ⟨h1, h2⟩ : u = t ∧ a :: l' = rest := by
          have := Option.some_injective _ h
          exact ⟨congrArg Prod.fst this, congrArg Prod.snd this⟩
        subst h1
        obtain ⟨l1, l2, hl, hr, hall, hpt⟩ := ih l' hrec
        refine ⟨a :: l1, l2, by rw [hl]; rfl, by rw [← h2, hr]; rfl, ?_, hpt⟩
        intro v hv
        rcases List.mem_cons.mp hv with rfl | hv
        · simpa using hp
        · exact hall v hv

theorem removeFirst_sublist (p : InFlightTile → Bool) (l : List InFlightTile)
    (t : InFlightTile) (rest : List InFlightTile)
    (h : removeFirst p l = some (t, rest)) : rest.Sublist l := by
  obtain ⟨l1, l2, hl, hr, -, -⟩ := removeFirst_some p l t rest h
  rw [hl, hr]
  exact (List.sublist_cons_self t l2).append_left l1

/-- Characterisation of the scheduler step on a timeout: the head in-flight
tile's owner is disconnected (client record removed, all of its in-flight
tiles purged); the pending queue is untouched. -/
theorem step_timeout_of_cons (prims : TrigPrims) (chan : ChanState) (now : Nat)
    (s : ServerState) (u : InFlightTile) (rest : List InFlightTile)
    (h : s.in_flight_tiles = u :: rest) :
    step prims chan now s .timeout = (disconnect_client s u.client_id, []) := by
  dsimp only [step]
  rw [h]

theorem step_submit_found (prims : TrigPrims) (chan : ChanState) (now : Nat)
    (s : ServerState) (cid : ClientId) (client : ClientState) (results : List Result)
    (t : InFlightTile) (rest : List InFlightTile)
    (hc : alGet s.clients cid = some client)
    (hr : removeFirst (fun u => u.client_id == cid) s.in_flight_tiles = some (t, rest)) :
    step prims chan now s (.event ⟨cid, .request (.submitResults results)⟩) =
      ({ s with in_flight_tiles := rest },
        [.response cid .submitResults,
          .output (sendBlit chan
            { client_id := cid, addr := t.addr, name := client.name,
              pixels := results.map resultToPixel,
              time := ((now - t.requested_at : Nat) : ℚ) })]) := by
  dsimp only [step]
  rw [hc, hr]

theorem step_submit_notfound (prims : TrigPrims) (chan : ChanState) (now : Nat)
    (s : ServerState) (cid : ClientId) (client : ClientState) (results : List Result)
    (hc : alGet s.clients cid = some client)
    (hr : removeFirst (fun u => u.client_id == cid) s.in_flight_tiles = none) :
    step prims chan now s (.event ⟨cid, .request (.submitResults results)⟩) =
      (s, [.response cid .submitResults]) := by
  dsimp only [step]
  rw [hc, hr]

theorem PendInv_congr (x y : ServerState) (h1 : x.pending_tiles = y.pending_tiles)
    (h2 : x.pending_frame = y.pending_frame) (h : PendInv y) : PendInv x := by
  unfold PendInv at *
  rw [h1, h2]
  exact h

theorem lowKey_congr (x y : ServerState) (h1 : x.pending_tiles = y.pending_tiles)
    (h2 : x.pending_frame = y.pending_frame) : lowKey x = lowKey y := by
  unfold lowKey
  rw [h1, h2]

/-- Field-level characterisation of the `ReserveRays` arm: the pending queue
advances by exactly the pop, and the in-flight queue either is unchanged
(client vanished) or has the popped tile appended with a `now + 5` deadline. -/
theorem step_reserve_cases (prims : TrigPrims) (chan : ChanState) (now : Nat)
    (s : ServerState) (cid : ClientId) :
    (step prims chan now s (.event ⟨cid, .request .reserveRays⟩)).1.pending_tiles =
        (pop_tile_addr s).2.pending_tiles ∧
      (step prims chan now s (.event ⟨cid, .request .reserveRays⟩)).1.pending_frame =
        (pop_tile_addr s).2.pending_frame ∧
      ((step prims chan now s (.event ⟨cid, .request .reserveRays⟩)).1.in_flight_tiles =
          s.in_flight_tiles ∨
        (step prims chan now s (.event ⟨cid, .request .reserveRays⟩)).1.in_flight_tiles =
          s.in_flight_tiles ++ [⟨cid, (pop_tile_addr s).1, now + 5, now⟩]) := by
  dsimp only [step]
  by_cases hc : s.current_frame < (pop_tile_addr s).1.frame <;>
    simp only [hc, if_true, if_false] <;> split
  · exact ⟨rfl, rfl, Or.inr (by
      show (regenerate_scene prims _).in_flight_tiles ++ _ = _
      rw [regenerate_scene_in_flight]
      show (pop_tile_addr s).2.in_flight_tiles ++ _ = _
      rw [pop_tile_addr_in_flight])⟩
  · refine ⟨rfl, rfl, Or.inl ?_⟩
    show (regenerate_scene prims _).in_flight_tiles = _
    rw [regenerate_scene_in_flight]
    show (pop_tile_addr s).2.in_flight_tiles = _
    rw [pop_tile_addr_in_flight]
  · exact ⟨rfl, rfl, Or.inr (by rw [pop_tile_addr_in_flight])⟩
  · exact ⟨rfl, rfl, Or.inl (pop_tile_addr_in_flight s)⟩

/-- One loop iteration preserves the scheduler invariant and never moves the
pending-queue position backwards. -/
theorem step_WF (prims : TrigPrims) (chan : ChanState) (now : Nat)
    (s : ServerState) (inp : LoopInput) (t : Nat)
    (h : WF s t) (hle : t ≤ now) :
    WF (step prims chan now s inp).1 now ∧
      lowKey s ≤ lowKey (step prims chan now s inp).1 := by
  obtain ⟨hpend, hkeys, hsort, htime⟩ := h
  have hWFnow : WF s now := by
    refine ⟨hpend, hkeys, hsort, ?_⟩
    intro u hu
    have := htime u hu
    omega
  cases inp with
  | timeout =>
    dsimp only [step]
    split
    · exact ⟨WF_disconnect s t now _ ⟨hpend, hkeys, hsort, htime⟩ hle, le_refl _⟩
    · exact ⟨hWFnow, le_refl _⟩
  | event e =>
    obtain ⟨cid, pl⟩ := e
    cases pl with
    | connected => exact ⟨⟨hpend, hkeys, hsort, hWFnow.2.2.2⟩, le_refl _⟩
    | disconnected =>
      exact ⟨WF_disconnect s t now _ ⟨hpend, hkeys, hsort, htime⟩ hle, le_refl _⟩
    | request r =>
      cases r with
      | reserveRays =>
        obtain ⟨hinv', hhead, hlow', hcl, hifl, hcf, hsc⟩ := pop_tile_addr_spec s hpend
        have hkeynew : key (pop_tile_addr s).1 = lowKey s := by
          rw [hhead, key_keyToAddr]
        obtain ⟨hpt, hpf, hor⟩ := step_reserve_cases prims chan now s cid
        have hlowres :
            lowKey (step prims chan now s (.event ⟨cid, .request .reserveRays⟩)).1 =
              lowKey s + 1 := by
          rw [lowKey_congr _ _ hpt hpf, hlow']
        refine ⟨⟨PendInv_congr _ _ hpt hpf hinv', ?_, ?_, ?_⟩, by omega⟩
        · intro u hu
          rw [hlowres]
          rcases hor with hifl' | hifl' <;> rw [hifl'] at hu
          · have := hkeys u hu
            omega
          · rw [List.mem_append] at hu
            rcases hu with hu | hu
            · have := hkeys u hu
              omega
            · simp only [List.mem_singleton] at hu
              subst hu
              simp only [hkeynew]
              omega
        · rcases hor with hifl' | hifl' <;> rw [SortedExpires, hifl']
          · exact hsort
          · rw [List.pairwise_append]
            refine ⟨hsort, by simp, ?_⟩
            intro a ha b hb
            simp only [List.mem_singleton] at hb
            subst hb
            have := htime a ha
            simp only
            omega
        · intro u hu
          rcases hor with hifl' | hifl' <;> rw [hifl'] at hu
          · have := htime u hu
            omega
          · rw [List.mem_append] at hu
            rcases hu with hu | hu
            · have := htime u hu
              omega
            · simp only [List.mem_singleton] at hu
              subst hu
              simp only
              omega
      | setName name =>
        dsimp only [step]
        split
        · exact ⟨⟨hpend, hkeys, hsort, hWFnow.2.2.2⟩, le_refl _⟩
        · exact ⟨hWFnow, le_refl _⟩
      | submitResults results =>
        dsimp only [step]
        split
        · split
          · next t' rest heq =>
            have hsub := removeFirst_sublist _ _ _ _ heq
            refine ⟨⟨hpend, ?_, ?_, ?_⟩, le_refl _⟩
            · intro u hu
              exact hkeys u (hsub.subset hu)
            · exact hsort.sublist hsub
            · intro u hu
              have := htime u (hsub.subset hu)
              omega
          · exact ⟨hWFnow, le_refl _⟩
        · exact ⟨hWFnow, le_refl _⟩

theorem reaches_WF (s : ServerState) (t : Nat) (s' : ServerState) (t' : Nat)
    (hr : Reaches s t s' t') (h : WF s t) : WF s' t' ∧ lowKey s ≤ lowKey s' := by
  induction hr with
  | refl => exact ⟨h, le_refl _⟩
  | step s2 t2 prims chan inp now hrec hle ih =>
    obtain ⟨hWF, hlow⟩ := ih
    obtain ⟨hWF', hlow'⟩ := step_WF prims chan now s2 inp t2 hWF hle
    exact ⟨hWF', le_trans hlow hlow'⟩

/-- Every tile still in the pending queue sits at position `lowKey s` or
later in the global handout order. -/
theorem pending_mem_lowKey_le (s : ServerState) (h : PendInv s) (a : TileAddr)
    (ha : a ∈ s.pending_tiles) : lowKey s ≤ key a := by
  obtain ⟨h1, h2, h3⟩ := h
  rw [h3] at ha
  obtain ⟨j, hj⟩ := List.mem_iff_get?.mp ha
  rw [List.get?_drop] at hj
  have hlt : TILES_X * TILES_Y - s.pending_tiles.length + j < TILES_X * TILES_Y := by
    by_contra hge
    rw [List.get?_eq_none.mpr (by rw [rowMajorFrame_length]; omega)] at hj
    exact absurd hj (by simp)
  rw [rowMajorFrame_get? _ _ hlt] at hj
  have ha' : a = ⟨s.pending_frame - 1,
      (TILES_X * TILES_Y - s.pending_tiles.length + j) % TILES_X,
      (TILES_X * TILES_Y - s.pending_tiles.length + j) / TILES_X⟩ :=
    (Option.some_injective _ hj).symm
  rw [ha', key_rowMajor _ _ hlt]
  unfold lowKey
  simp only [TILES_X, TILES_Y] at *
  omega

/-- C3: in every reachable scheduler state the in-flight queue is
non-decreasing in `expires` (the head is the next tile that can time out);
when the timed wait expires, the head tile's owner is disconnected — its
client record is removed and every in-flight tile belonging to it is purged,
while the pending queue is untouched; and no tile that was in flight at the
moment of the timeout is ever returned to the pending queue afterwards. -/
theorem in_flight_timeout_reclamation :
    (∀ (elems : List SceneElement) (disps : List Vec3) (s : ServerState) (t : Nat),
      Reaches (initState elems disps) 0 s t → SortedExpires s.in_flight_tiles) ∧
      (∀ (prims : TrigPrims) (chan : ChanState) (now : Nat) (s : ServerState)
          (u : InFlightTile) (rest : List InFlightTile),
        s.in_flight_tiles = u :: rest →
          step prims chan now s .timeout =
            ({ s with clients := alRemove s.clients u.client_id,
                      in_flight_tiles :=
                        s.in_flight_tiles.filter fun v => v.client_id ≠ u.client_id },
              [])) ∧
      (∀ (elems : List SceneElement) (disps : List Vec3) (s : ServerState) (t : Nat),
        Reaches (initState elems disps) 0 s t →
          ∀ (prims : TrigPrims) (chan : ChanState) (now : Nat), t ≤ now →
            ∀ u ∈ s.in_flight_tiles, ∀ (s' : ServerState) (t' : Nat),
              Reaches (step prims chan now s .timeout).1 now s' t' →
                u.addr ∉ s'.pending_tiles) := by
  refine ⟨?_, ?_, ?_⟩
  · intro elems disps s t hr
    exact ((reaches_WF _ _ _ _ hr (WF_initState elems disps)).1).2.2.1
  · intro prims chan now s u rest h
    rw [step_timeout_of_cons prims chan now s u rest h]
    rfl
  · intro elems disps s t hr prims chan now hnow u hu s' t' hr'
    obtain ⟨hWF, -⟩ := reaches_WF _ _ _ _ hr (WF_initState elems disps)
    have hkey : key u.addr < lowKey s := hWF.2.1 u hu
    obtain ⟨hWF2, hlow2⟩ := step_WF prims chan now s .timeout t hWF hnow
    obtain ⟨hWF', hlow'⟩ := reaches_WF _ _ _ _ hr' hWF2
    intro hmem
    have := pending_mem_lowKey_le s' hWF'.1 u.addr hmem
    omega

/-- Witness for C3: a concrete timeout step disconnects the head tile's
owner (client 7) and purges its in-flight tiles. -/
theorem in_flight_timeout_reclamation_witness :
    step ⟨id, id⟩ ChanState.ok 5
        { clients := [(7, ⟨"w"⟩)], pending_tiles := [], in_flight_tiles := [⟨7, ⟨0, 0, 0⟩, 5, 0⟩],
          pending_frame := 1, current_frame := 0, scene := Scene.default,
          random_displacements := [], scene_elements := [] } .timeout =
      ({ clients := alRemove [(7, (⟨"w"⟩ : ClientState))] 7, pending_tiles := [],
          in_flight_tiles :=
            [(⟨7, ⟨0, 0, 0⟩, 5, 0⟩ : InFlightTile)].filter fun v => v.client_id ≠ 7,
          pending_frame := 1, current_frame := 0, scene := Scene.default,
          random_displacements := [], scene_elements := [] }, []) :=
  in_flight_timeout_reclamation.2.1 ⟨id, id⟩ ChanState.ok 5 _ ⟨7, ⟨0, 0, 0⟩, 5, 0⟩ [] rfl

/-! ## SubmitResults semantics (C6) -/

/-- C6: for a `SubmitResults` request from a registered client, the
`SubmitResults` response is the first effect — it is sent before the
in-flight queue is examined and regardless of its contents; the scheduler
then removes the first (oldest) in-flight tile of the sender, which need not
be the head, and emits the corresponding `BlitTile`; if the sender has no
in-flight tile, the results are dropped, no `BlitTile` is emitted and the
state is unchanged, yet the response is still sent. -/
theorem submit_results_semantics (prims : TrigPrims) (chan : ChanState) (now : Nat)
    (s : ServerState) (cid : ClientId) (client : ClientState) (results : List Result)
    (hc : alGet s.clients cid = some client) :
    ((step prims chan now s (.event ⟨cid, .request (.submitResults results)⟩)).2.head? =
        some (.response cid .submitResults)) ∧
      (∀ (t : InFlightTile) (rest : List InFlightTile),
        removeFirst (fun u => u.client_id == cid) s.in_flight_tiles = some (t, rest) →
          (step prims chan now s (.event ⟨cid, .request (.submitResults results)⟩)).1 =
              { s with in_flight_tiles := rest } ∧
            (∃ l1 l2, s.in_flight_tiles = l1 ++ t :: l2 ∧ rest = l1 ++ l2 ∧
              (∀ v ∈ l1, v.client_id ≠ cid) ∧ t.client_id = cid) ∧
            (step prims chan now s (.event ⟨cid, .request (.submitResults results)⟩)).2 =
              [.response cid .submitResults,
                .output (sendBlit chan
                  { client_id := cid, addr := t.addr, name := client.name,
                    pixels := results.map resultToPixel,
                    time := ((now - t.requested_at : Nat) : ℚ) })]) ∧
      (removeFirst (fun u => u.client_id == cid) s.in_flight_tiles = none →
        (step prims chan now s (.event ⟨cid, .request (.submitResults results)⟩)).1 = s ∧
          (step prims chan now s (.event ⟨cid, .request (.submitResults results)⟩)).2 =
            [.response cid .submitResults]) := by
  refine ⟨?_, ?_, ?_⟩
  · cases hrm : removeFirst (fun u => u.client_id == cid) s.in_flight_tiles with
    | none =>
      rw [step_submit_notfound prims chan now s cid client results hc hrm]
      rfl
    | some r =>
      obtain ⟨t, rest⟩ := r
      rw [step_submit_found prims chan now s cid client results t rest hc hrm]
      rfl
  · intro t rest hrm
    rw [step_submit_found prims chan now s cid client results t rest hc hrm]
    obtain ⟨l1, l2, hl, hr, hall, hpt⟩ := removeFirst_some _ _ _ _ hrm
    refine ⟨rfl, ⟨l1, l2, hl, hr, ?_, by simpa using hpt⟩, rfl⟩
    intro v hv
    have := hall v hv
    simpa using this
  · intro hrm
    rw [step_submit_notfound prims chan now s cid client results hc hrm]
    exact ⟨rfl, rfl⟩

/-- Witness for C6: a registered client with no outstanding reservation has
its submission dropped but still receives the `SubmitResults` response. -/
theorem submit_results_semantics_witness :
    (step ⟨id, id⟩ ChanState.ok 0
          { clients := [(3, ⟨"alice"⟩)], pending_tiles := [], in_flight_tiles := [],
            pending_frame := 1, current_frame := 0, scene := Scene.default,
            random_displacements := [], scene_elements := [] }
          (.event ⟨3, .request (.submitResults [])⟩)).1 =
        { clients := [(3, ⟨"alice"⟩)], pending_tiles := [], in_flight_tiles := [],
          pending_frame := 1, current_frame := 0, scene := Scene.default,
          random_displacements := [], scene_elements := [] } ∧
      (step ⟨id, id⟩ ChanState.ok 0
          { clients := [(3, ⟨"alice"⟩)], pending_tiles := [], in_flight_tiles := [],
            pending_frame := 1, current_frame := 0, scene := Scene.default,
            random_displacements := [], scene_elements := [] }
          (.event ⟨3, .request (.submitResults [])⟩)).2 =
        [.response 3 .submitResults] :=
  (submit_results_semantics ⟨id, id⟩ ChanState.ok 0
      { clients := [(3, ⟨"alice"⟩)], pending_tiles := [], in_flight_tiles := [],
        pending_frame := 1, current_frame := 0, scene := Scene.default,
        random_displacements := [], scene_elements := [] } 3 ⟨"alice"⟩ [] rfl).2.2 rfl

/-! ## The frame accumulator (output.rs) -/

/-- output.rs: the accumulator's per-client statistics (`ClientState`).
`current_count` and `total_count` are `u32` and wrap modulo `2 ^ 32`. -/
structure OClientState where
  current_count : Nat
  total_count : Nat
  average_time : ℚ
  name : String
deriving DecidableEq, Repr

/-- output.rs: `MetaState` (its `tiles_x`/`tiles_y` fields are the global
constants and are omitted). -/
structure MetaState where
  tiles : List (Option ClientId)
  clients : List (ClientId × OClientState)
deriving DecidableEq, Repr

/-- output.rs: `MetaBlitTile`. -/
structure MetaBlitTile where
  client_id : ClientId
  tile : Nat
  time : ℚ
  name : Option String
deriving DecidableEq, Repr

/-- output.rs: `MetaActionPayload`. -/
inductive MetaActionPayload where
  | snapshot (ms : MetaState)
  | blitTile (b : MetaBlitTile)
deriving DecidableEq, Repr

/-- output.rs: `MetaAction { ts, payload }`. -/
structure MetaAction where
  ts : Nat
  payload : MetaActionPayload
deriving DecidableEq, Repr

/-- output.rs: the `Accumulator`; the BGRx byte buffer is modelled as a
total byte store indexed by address. -/
structure Accumulator where
  data : Nat → Nat
  frame_done : Bool
  meta_state : MetaState
  meta_actions : List MetaAction

/-- `u32` increment with wrap-around. -/
def u32add1 (x : Nat) : Nat := (x + 1) % 2 ^ 32

/-- `u32` decrement with wrap-around (`x - 1` in release-mode Rust). -/
def u32sub1 (x : Nat) : Nat := (x + 2 ^ 32 - 1) % 2 ^ 32

/-- Rust `as u8` applied to a float: saturating cast (negative values to 0,
values above 255 to 255, otherwise truncation toward zero). -/
def toU8 (q : ℚ) : Nat := min 255 q.floor.toNat

/-- output.rs lines 372-374: byte offset of pixel `(x, y)` of tile
`(ax, ay)`: `offset + (ay·TILE_SIZE + y)·stride + (ax·TILE_SIZE + x)·4`. -/
def pixByte (offset stride ax ay y x : Nat) : Nat :=
  offset + (ay * TILE_SIZE + y) * stride + (ax * TILE_SIZE + x) * 4

/-- Byte offset of the linear pixel index `j = y * TILE_SIZE + x`. -/
def baseOf (offset stride ax ay j : Nat) : Nat :=
  pixByte offset stride ax ay (j / TILE_SIZE) (j % TILE_SIZE)

/-- output.rs lines 376-378: the three byte writes of one loop iteration
(`B`, `G`, `R` at `i`, `i+1`, `i+2`; the fourth byte is not written). -/
def writePix (buf : Nat → Nat) (i : Nat) (px : Vec3) : Nat → Nat :=
  fun a =>
    if a = i then toU8 (px.z * 255)
    else if a = i + 1 then toU8 (px.y * 255)
    else if a = i + 2 then toU8 (px.x * 255)
    else buf a

/-- output.rs lines 370-380: the nested blit loops (`y` outer, `x` inner),
expressed over the linear pixel index `j = y * TILE_SIZE + x`, which the
loops visit consecutively from `0` to `TILE_SIZE² - 1`; iteration `j` reads
`pixels[j]` — a panicking `Vec` index, so a missing pixel yields `none` —
and writes the three bytes at `baseOf j`. -/
def blitAux (pixels : List Vec3) (offset stride ax ay : Nat) :
    Nat → Nat → (Nat → Nat) → Option (Nat → Nat)
  | 0, _, buf => some buf
  | n + 1, j, buf =>
    match pixels.get? j with
    | none => none
    | some px =>
      blitAux pixels offset stride ax ay n (j + 1)
        (writePix buf (baseOf offset stride ax ay j) px)

/-- The whole pixel-blit loop of one `BlitTile` event. -/
def blitPixels (pixels : List Vec3) (offset stride ax ay : Nat) (buf : Nat → Nat) :
    Option (Nat → Nat) :=
  blitAux pixels offset stride ax ay (TILE_SIZE * TILE_SIZE) 0 buf

/-- output.rs lines 401-404: the statistics update applied to the entry
returned by `entry(..).or_insert_with(..)` — detect a name change, update
the EMA `average_time`, increment both counters. -/
def updateStats (st0 : OClientState) (time : ℚ) (name : String) : OClientState × Bool :=
  let nameChanged := st0.name ≠ name
  (⟨u32add1 st0.current_count, u32add1 st0.total_count,
    st0.average_time * (0.999 : ℚ) + time * (0.001 : ℚ),
    if nameChanged then name else st0.name⟩, nameChanged)

/-- output.rs lines 396-413: `clients.entry(cid).or_insert_with(fresh)`
followed by the statistics update.  The entry API returns the existing
record or inserts the fresh one `(current 0, total 0, avg = time, name "")`;
it cannot fail. -/
def upsert_blit (tiles1 : List (Option ClientId))
    (clients1 : List (ClientId × OClientState)) (cid : ClientId) (time : ℚ)
    (name : String) : MetaState × Bool :=
  match alGet clients1 cid with
  | some st0 =>
    (⟨tiles1, alModify clients1 cid fun _ => (updateStats st0 time name).1⟩,
      (updateStats st0 time name).2)
  | none =>
    (⟨tiles1, (cid, (updateStats ⟨0, 0, time, ""⟩ time name).1) :: clients1⟩,
      (updateStats ⟨0, 0, time, ""⟩ time name).2)

/-- output.rs lines 381-413: ownership accounting and per-client statistics
for one `BlitTile` event.  The `Vec` index into `tiles` and the `.unwrap()`
on the old owner's record are panics, modelled as `none`; the returned
`Bool` is `name_changed` (used for the appended meta action). -/
def ownership_step (ms : MetaState) (cid : ClientId) (tile : Nat) (time : ℚ)
    (name : String) : Option (MetaState × Bool) :=
  match ms.tiles.get? tile with
  | none => none
  | some oldSlot =>
    match
      (match oldSlot with
        | some old =>
          match alGet ms.clients old with
          | none => none
          | some oldSt =>
            let c := u32sub1 oldSt.current_count
            let cl := alModify ms.clients old fun st => { st with current_count := c }
            some (if c = 0 then alRemove cl old else cl)
        | none => some ms.clients) with
    | none => none
    | some clients1 =>
      some (upsert_blit (ms.tiles.set tile (some cid)) clients1 cid time name)

/-- output.rs lines 363-428: processing of one `BlitTile` event by the
accumulator thread.  `offset` and `stride` come from the video layout
negotiated with the encoder; `ts` is the elapsed time in milliseconds used
for the appended meta action. -/
def processBlit (offset stride ts : Nat) (acc : Accumulator) (p : BlitTileEvent) :
    Option Accumulator :=
  let fd := if p.addr.x = TILES_X - 1 ∧ p.addr.y = TILES_Y - 1 then true else acc.frame_done
  match blitPixels p.pixels offset stride p.addr.x p.addr.y acc.data with
  | none => none
  | some buf =>
    let tile := p.addr.y * TILES_X + p.addr.x
    match ownership_step acc.meta_state p.client_id tile p.time p.name with
    | none => none
    | some (ms, nameChanged) =>
      some { data := buf
             frame_done := fd
             meta_state := ms
             meta_actions := acc.meta_actions ++
               [⟨ts, .blitTile ⟨p.client_id, tile, p.time,
                  if nameChanged then some p.name else none⟩⟩] }

/-- Number of tile slots owned by client `c`. -/
def countOwned (c : ClientId) : List (Option ClientId) → Nat
  | [] => 0
  | o :: rest => (if o = some c then 1 else 0) + countOwned c rest

/-- Number of tile slots that are `Some`. -/
def countSome : List (Option ClientId) → Nat
  | [] => 0
  | o :: rest => (if o.isSome then 1 else 0) + countSome rest

/-- Sum of `current_count` over the accumulator's client map. -/
def sumCounts : List (ClientId × OClientState) → Nat
  | [] => 0
  | p :: rest => p.2.current_count + sumCounts rest

/-- Number of clients of the map that own slot value `o`. -/
def hitCount (o : Option ClientId) : List (ClientId × OClientState) → Nat
  | [] => 0
  | p :: rest => (if o = some p.1 then 1 else 0) + hitCount o rest

/-- Sum over the client map of the number of slots each client owns. -/
def sumOwned (tiles : List (Option ClientId)) :
    List (ClientId × OClientState) → Nat
  | [] => 0
  | p :: rest => countOwned p.1 tiles + sumOwned tiles rest

/-- Spec invariant 1 (§8): the counts add up to the owned slots. -/
def CountInv (ms : MetaState) : Prop := sumCounts ms.clients = countSome ms.tiles

/-- Spec invariant 2 (§8): the key set of `clients` equals the set of
distinct `Some` values of `tile_owner`. -/
def OwnerInv (ms : MetaState) : Prop :=
  (∀ p ∈ ms.clients, some p.1 ∈ ms.tiles) ∧
    ∀ o ∈ ms.tiles, ∀ c : ClientId, o = some c → c ∈ ms.clients.map Prod.fst

/-- The inductive strengthening of the two §8 invariants: client keys are
distinct, `tiles` has full length, every client's `current_count` is exactly
the number of slots it owns (and positive), and every owner is registered. -/
def StrongInv (ms : MetaState) : Prop :=
  (ms.clients.map Prod.fst).Nodup ∧
    ms.tiles.length = TILES_X * TILES_Y ∧
    (∀ p ∈ ms.clients,
      p.2.current_count = countOwned p.1 ms.tiles ∧ 0 < p.2.current_count) ∧
    ∀ o ∈ ms.tiles, ∀ c : ClientId, o = some c → c ∈ ms.clients.map Prod.fst

theorem countOwned_le_length (c : ClientId) (tiles : List (Option ClientId)) :
    countOwned c tiles ≤ tiles.length := by
  induction tiles with
  | nil => simp [countOwned]
  | cons o rest ih =>
    simp only [countOwned, List.length_cons]
    split <;> omega

theorem countOwned_pos_iff (c : ClientId) (tiles : List (Option ClientId)) :
    0 < countOwned c tiles ↔ some c ∈ tiles := by
  induction tiles with
  | nil => simp [countOwned]
  | cons o rest ih =>
    simp only [countOwned, List.mem_cons]
    by_cases ho : o = some c
    · simp [ho]
    · have : (some c = o) ↔ False := by
        constructor
        · intro h'; exact ho h'.symm
        · exact False.elim
      simp [ho, this, ih]

theorem countOwned_set_add (tiles : List (Option ClientId)) (i : Nat)
    (old b : Option ClientId) (c : ClientId) (h : tiles.get? i = some old) :
    countOwned c (tiles.set i b) + (if old = some c then 1 else 0) =
      countOwned c tiles + (if b = some c then 1 else 0) := by
  induction tiles generalizing i with
  | nil => simp at h
  | cons o rest ih =>
    cases i with
    | zero =>
      have : o = old := Option.some_injective _ (by simpa using h)
      subst this
      simp only [List.set_cons_zero, countOwned]
      omega
    | succ i =>
      simp only [List.set_cons_succ, countOwned]
      have := ih i (by simpa using h)
      omega

theorem hitCount_none (clients : List (ClientId × OClientState)) :
    hitCount none clients = 0 := by
  induction clients with
  | nil => rfl
  | cons p rest ih => simp [hitCount, ih]

theorem hitCount_some_of_not_mem (c : ClientId) (clients : List (ClientId × OClientState))
    (hc : c ∉ clients.map Prod.fst) : hitCount (some c) clients = 0 := by
  induction clients with
  | nil => rfl
  | cons p rest ih =>
    simp only [List.map_cons, List.mem_cons] at hc
    push_neg at hc
    simp only [hitCount]
    rw [if_neg (by simpa using fun h' : c = p.1 => hc.1 h'), ih hc.2]

theorem hitCount_some_of_mem (c : ClientId) (clients : List (ClientId × OClientState))
    (hnd : (clients.map Prod.fst).Nodup) (hc : c ∈ clients.map Prod.fst) :
    hitCount (some c) clients = 1 := by
  induction clients with
  | nil => simp at hc
  | cons p rest ih =>
    simp only [List.map_cons, List.nodup_cons] at hnd
    simp only [List.map_cons, List.mem_cons] at hc
    simp only [hitCount]
    by_cases hcp : c = p.1
    · subst hcp
      rw [if_pos rfl, hitCount_some_of_not_mem p.1 rest hnd.1]
    · rw [if_neg (by simpa using hcp), ih hnd.2 (hc.resolve_left hcp)]

theorem sumOwned_nil (clients : List (ClientId × OClientState)) :
    sumOwned [] clients = 0 := by
  induction clients with
  | nil => rfl
  | cons p rest ih => simp [sumOwned, countOwned, ih]

theorem sumOwned_cons (o : Option ClientId) (rest : List (Option ClientId))
    (clients : List (ClientId × OClientState)) :
    sumOwned (o :: rest) clients = hitCount o clients + sumOwned rest clients := by
  induction clients with
  | nil => rfl
  | cons p cl ih =>
    simp only [sumOwned, hitCount, countOwned, ih]
    omega

theorem sumCounts_eq_sumOwned (tiles : List (Option ClientId))
    (clients : List (ClientId × OClientState))
    (hcounts : ∀ p ∈ clients, p.2.current_count = countOwned p.1 tiles) :
    sumCounts clients = sumOwned tiles clients := by
  induction clients with
  | nil => rfl
  | cons p rest ih =>
    simp only [sumCounts, sumOwned]
    rw [hcounts p (List.mem_cons_self p rest),
      ih fun q hq => hcounts q (List.mem_cons_of_mem p hq)]

theorem sumOwned_eq_countSome (tiles : List (Option ClientId))
    (clients : List (ClientId × OClientState))
    (hnd : (clients.map Prod.fst).Nodup)
    (hcl : ∀ o ∈ tiles, ∀ c : ClientId, o = some c → c ∈ clients.map Prod.fst) :
    sumOwned tiles clients = countSome tiles := by
  induction tiles with
  | nil => simp [sumOwned_nil, countSome]
  | cons o rest ih =>
    rw [sumOwned_cons]
    have hrest := ih fun o' ho' c hc => hcl o' (List.mem_cons_of_mem o ho') c hc
    cases o with
    | none => simp [hitCount_none, countSome, hrest]
    | some c =>
      have hc : c ∈ clients.map Prod.fst := hcl (some c) (List.mem_cons_self _ _) c rfl
      simp [hitCount_some_of_mem c clients hnd hc, countSome, hrest]

/-- The inductive invariant implies the two §8 invariants. -/
theorem StrongInv_implies (ms : MetaState) (h : StrongInv ms) :
    CountInv ms ∧ OwnerInv ms := by
  obtain ⟨hnd, hlen, hpc, hcl⟩ := h
  refine ⟨?_, ?_, hcl⟩
  · unfold CountInv
    rw [sumCounts_eq_sumOwned ms.tiles ms.clients fun p hp => (hpc p hp).1]
    exact sumOwned_eq_countSome ms.tiles ms.clients hnd hcl
  · intro p hp
    rw [← countOwned_pos_iff]
    have := hpc p hp
    omega

theorem alGet_isSome_iff {β : Type} (l : List (ClientId × β)) (k : ClientId) :
    (alGet l k).isSome ↔ k ∈ l.map Prod.fst := by
  induction l with
  | nil => simp [alGet]
  | cons p rest ih =>
    simp only [alGet, List.map_cons, List.mem_cons]
    by_cases hp : p.1 = k
    · simp [hp]
    · rw [if_neg hp, ih]
      have : (k = p.1) ↔ False := ⟨fun h' => hp h'.symm, False.elim⟩
      simp [this]

theorem alGet_cons' {β : Type} (p : ClientId × β) (l : List (ClientId × β))
    (k' : ClientId) :
    alGet (p :: l) k' = if p.1 = k' then some p.2 else alGet l k' := by
  obtain ⟨a, b⟩ := p
  rfl

theorem alGet_eq_some_mem {β : Type} (l : List (ClientId × β)) (k : ClientId) (v : β)
    (h : alGet l k = some v) : (k, v) ∈ l := by
  induction l with
  | nil => simp [alGet] at h
  | cons p rest ih =>
    rw [alGet_cons'] at h
    by_cases hp : p.1 = k
    · rw [if_pos hp] at h
      have hv : p.2 = v := Option.some_injective _ h
      have hpkv : p = (k, v) := by
        obtain ⟨a, b⟩ := p
        simp only at hp hv
        rw [hp, hv]
      rw [← hpkv]
      exact List.mem_cons_self p rest
    · rw [if_neg hp] at h
      exact List.mem_cons_of_mem p (ih h)

theorem alModify_cons {β : Type} (p : ClientId × β) (l : List (ClientId × β))
    (k : ClientId) (f : β → β) :
    alModify (p :: l) k f =
      (if p.1 = k then (p.1, f p.2) else p) :: alModify l k f := rfl

theorem alRemove_cons {β : Type} (p : ClientId × β) (l : List (ClientId × β))
    (k : ClientId) :
    alRemove (p :: l) k = if p.1 = k then alRemove l k else p :: alRemove l k := by
  by_cases hp : p.1 = k
  · simp [alRemove, List.filter_cons, hp]
  · simp [alRemove, List.filter_cons, hp]

theorem alModify_keys {β : Type} (l : List (ClientId × β)) (k : ClientId) (f : β → β) :
    (alModify l k f).map Prod.fst = l.map Prod.fst := by
  induction l with
  | nil => rfl
  | cons p rest ih =>
    rw [alModify_cons]
    by_cases hp : p.1 = k
    · simp only [if_pos hp, List.map_cons, ih]
    · simp only [if_neg hp, List.map_cons, ih]

theorem mem_alRemove {β : Type} (l : List (ClientId × β)) (k : ClientId) (p : ClientId × β) :
    p ∈ alRemove l k ↔ p ∈ l ∧ p.1 ≠ k := by
  simp [alRemove, List.mem_filter]

theorem alRemove_sublist {β : Type} (l : List (ClientId × β)) (k : ClientId) :
    (alRemove l k).Sublist l := List.filter_sublist l

theorem alRemove_keys_nodup {β : Type} (l : List (ClientId × β)) (k : ClientId)
    (hnd : (l.map Prod.fst).Nodup) : ((alRemove l k).map Prod.fst).Nodup :=
  hnd.sublist ((alRemove_sublist l k).map Prod.fst)

theorem mem_alModify_elim {β : Type} (l : List (ClientId × β)) (k : ClientId) (f : β → β)
    (p : ClientId × β) (h : p ∈ alModify l k f) :
    ∃ q ∈ l, p = if q.1 = k then (q.1, f q.2) else q := by
  simp only [alModify, List.mem_map] at h
  obtain ⟨q, hq, hpq⟩ := h
  exact ⟨q, hq, hpq.symm⟩

theorem alGet_alModify {β : Type} (l : List (ClientId × β)) (k k' : ClientId) (f : β → β) :
    alGet (alModify l k f) k' =
      if k' = k then (alGet l k').map f else alGet l k' := by
  induction l with
  | nil => simp [alGet, alModify]
  | cons p rest ih =>
    rw [alModify_cons, alGet_cons', alGet_cons']
    by_cases hp : p.1 = k
    · by_cases hk' : k' = k
      · rw [if_pos hp, if_pos hk']
        simp only
        rw [if_pos (by rw [hp, hk'] : p.1 = k'), if_pos (by rw [hp, hk'] : p.1 = k')]
        rfl
      · rw [if_pos hp, if_neg hk']
        simp only
        rw [if_neg (fun h => hk' (by rw [← h, hp]) : ¬p.1 = k'),
          if_neg (fun h => hk' (by rw [← h, hp]) : ¬p.1 = k'), ih, if_neg hk']
    · rw [if_neg hp]
      by_cases hpk' : p.1 = k'
      · rw [if_pos hpk', if_pos hpk',
          if_neg (fun h => hp (by rw [hpk', h]) : ¬k' = k)]
      · rw [if_neg hpk', if_neg hpk', ih]

theorem alGet_alRemove {β : Type} (l : List (ClientId × β)) (k k' : ClientId) :
    alGet (alRemove l k) k' = if k' = k then none else alGet l k' := by
  induction l with
  | nil => simp [alGet, alRemove]
  | cons p rest ih =>
    rw [alRemove_cons, alGet_cons']
    by_cases hp : p.1 = k
    · rw [if_pos hp, ih]
      by_cases hk' : k' = k
      · rw [if_pos hk', if_pos hk']
      · rw [if_neg hk', if_neg hk',
          if_neg (fun h => hk' (by rw [← h, hp]) : ¬p.1 = k')]
    · rw [if_neg hp, alGet_cons']
      by_cases hpk' : p.1 = k'
      · rw [if_pos hpk', if_pos hpk',
          if_neg (fun h => hp (by rw [hpk', h]) : ¬k' = k)]
      · rw [if_neg hpk', if_neg hpk', ih]

theorem alGet_of_mem_nodup {β : Type} (l : List (ClientId × β))
    (hnd : (l.map Prod.fst).Nodup) (q : ClientId × β) (hq : q ∈ l) :
    alGet l q.1 = some q.2 := by
  induction l with
  | nil => simp at hq
  | cons p rest ih =>
    simp only [List.map_cons, List.nodup_cons] at hnd
    rcases List.mem_cons.mp hq with rfl | hq'
    · rw [alGet_cons', if_pos rfl]
    · rw [alGet_cons']
      by_cases hp : p.1 = q.1
      · exact absurd (show p.1 ∈ rest.map Prod.fst from by
          rw [hp]; exact List.mem_map_of_mem Prod.fst hq') hnd.1
      · rw [if_neg hp]
        exact ih hnd.2 hq'

theorem get?_set_self (l : List (Option ClientId)) (n : Nat) (a : Option ClientId)
    (h : n < l.length) : (l.set n a).get? n = some a := by
  rw [List.get?_set_eq, List.get?_eq_get h]
  rfl

theorem u32sub1_eq (x : Nat) (h1 : 1 ≤ x) (h2 : x < 2 ^ 32) : u32sub1 x = x - 1 := by
  unfold u32sub1
  omega

theorem u32add1_eq (x : Nat) (h : x + 1 < 2 ^ 32) : u32add1 x = x + 1 := by
  unfold u32add1
  omega

/-- Preservation of the accounting invariant by the upsert of output.rs
lines 396-413 (`entry(..).or_insert_with(..)` plus the statistics update),
relative to a mid-state tile multiset `tilesMid` in which the target slot is
vacant and the final multiset `tiles1` in which it holds the new owner. -/
theorem upsert_blit_strong (tiles1 tilesMid : List (Option ClientId))
    (clients1 : List (ClientId × OClientState)) (cid : ClientId) (time : ℚ)
    (name : String)
    (hnd1 : (clients1.map Prod.fst).Nodup)
    (hpc1 : ∀ p ∈ clients1,
      p.2.current_count = countOwned p.1 tilesMid ∧ 0 < p.2.current_count)
    (hcl1 : ∀ o ∈ tilesMid, ∀ x : ClientId, o = some x → x ∈ clients1.map Prod.fst)
    (hcount : ∀ c : ClientId,
      countOwned c tiles1 = countOwned c tilesMid + (if cid = c then 1 else 0))
    (hmem1 : ∀ o ∈ tiles1, o ∈ tilesMid ∨ o = some cid)
    (hbound : ∀ c : ClientId, countOwned c tilesMid + 1 < 2 ^ 32)
    (hlen1 : tiles1.length = TILES_X * TILES_Y) :
    StrongInv (upsert_blit tiles1 clients1 cid time name).1 ∧
      (upsert_blit tiles1 clients1 cid time name).1.tiles = tiles1 := by
  cases hg : alGet clients1 cid with
  | some st0 =>
    have hmem := alGet_eq_some_mem clients1 cid st0 hg
    have hcc0 : st0.current_count = countOwned cid tilesMid := (hpc1 (cid, st0) hmem).1
    have hadd : u32add1 st0.current_count = st0.current_count + 1 :=
      u32add1_eq _ (by rw [hcc0]; exact hbound cid)
    unfold upsert_blit
    rw [hg]
    refine ⟨⟨?_, ?_, ?_, ?_⟩, rfl⟩
    · dsimp only
      rw [alModify_keys]
      exact hnd1
    · exact hlen1
    · dsimp only
      intro p hp
      obtain ⟨q, hq, hpq⟩ := mem_alModify_elim _ _ _ p hp
      by_cases hqc : q.1 = cid
      · rw [if_pos hqc] at hpq
        subst hpq
        simp only [updateStats]
        rw [hqc]
        constructor
        · rw [hadd, hcc0, hcount cid, if_pos rfl]
        · rw [hadd]
          omega
      · rw [if_neg hqc] at hpq
        have hq2 := hpc1 q hq
        rw [hpq]
        rw [hcount q.1, if_neg (fun h : cid = q.1 => hqc h.symm)]
        refine ⟨?_, hq2.2⟩
        omega
    · dsimp only
      intro o ho x hx
      rw [alModify_keys]
      rcases hmem1 o ho with hm | rfl
      · exact hcl1 o hm x hx
      · have : x = cid := Option.some_injective _ hx.symm
        subst this
        exact (alGet_isSome_iff clients1 x).mp (by rw [hg]; rfl)
  | none =>
    have hnotmem : cid ∉ clients1.map Prod.fst := by
      rw [← alGet_isSome_iff, hg]
      simp
    have hzero : countOwned cid tilesMid = 0 := by
      by_contra hz
      have : some cid ∈ tilesMid := (countOwned_pos_iff cid tilesMid).mp (by omega)
      exact hnotmem (hcl1 (some cid) this cid rfl)
    unfold upsert_blit
    rw [hg]
    refine ⟨⟨?_, ?_, ?_, ?_⟩, rfl⟩
    · dsimp only
      rw [List.map_cons, List.nodup_cons]
      exact ⟨hnotmem, hnd1⟩
    · exact hlen1
    · dsimp only
      intro p hp
      rcases List.mem_cons.mp hp with rfl | hp'
      · simp only [updateStats]
        constructor
        · have h1 : u32add1 (0 : Nat) = 1 := by
            unfold u32add1
            norm_num
          rw [h1, hcount cid, if_pos rfl, hzero]
        · have h1 : u32add1 (0 : Nat) = 1 := by
            unfold u32add1
            norm_num
          rw [h1]
          omega
      · have hpne : p.1 ≠ cid := by
          intro hp1
          exact hnotmem (hp1 ▸ List.mem_map_of_mem Prod.fst hp')
        have hq2 := hpc1 p hp'
        rw [hcount p.1, if_neg (fun h : cid = p.1 => hpne h.symm)]
        refine ⟨?_, hq2.2⟩
        omega
    · dsimp only
      intro o ho x hx
      rw [List.map_cons]
      rcases hmem1 o ho with hm | rfl
      · exact List.mem_cons_of_mem _ (hcl1 o hm x hx)
      · have : x = cid := Option.some_injective _ hx.symm
        subst this
        exact List.mem_cons_self _ _

/-- Core preservation theorem for the accumulator ownership accounting
(output.rs lines 381-413): from a state satisfying the inductive invariant,
the step succeeds (no panic), sets the target slot to the new owner, and
preserves the invariant. -/
theorem ownership_step_preserves (ms : MetaState) (cid : ClientId) (tile : Nat)
    (time : ℚ) (name : String) (h : StrongInv ms) (ht : tile < TILES_X * TILES_Y) :
    ∃ ms' nc, ownership_step ms cid tile time name = some (ms', nc) ∧
      ms'.tiles = ms.tiles.set tile (some cid) ∧ StrongInv ms' := by
  obtain ⟨hnd, hlen, hpc, hcl⟩ := h
  have htl : tile < ms.tiles.length := by rw [hlen]; exact ht
  obtain ⟨oldSlot, hslot⟩ : ∃ o, ms.tiles.get? tile = some o := by
    rw [List.get?_eq_get htl]
    exact ⟨_, rfl⟩
  have hmidlen : (ms.tiles.set tile none).length = ms.tiles.length :=
    List.length_set ..
  have hmid : ∀ c : ClientId,
      countOwned c (ms.tiles.set tile none) + (if oldSlot = some c then 1 else 0) =
        countOwned c ms.tiles := by
    intro c
    have := countOwned_set_add ms.tiles tile oldSlot none c hslot
    simpa using this
  have hset2 : (ms.tiles.set tile none).set tile (some cid) =
      ms.tiles.set tile (some cid) := List.set_set ..
  have hfin : ∀ c : ClientId,
      countOwned c (ms.tiles.set tile (some cid)) =
        countOwned c (ms.tiles.set tile none) + (if cid = c then 1 else 0) := by
    intro c
    have := countOwned_set_add (ms.tiles.set tile none) tile none (some cid) c
      (get?_set_self ms.tiles tile none htl)
    rw [hset2] at this
    have hnone : (if (none : Option ClientId) = some c then 1 else 0) = 0 := by simp
    rw [hnone] at this
    have hsome : (if (some cid : Option ClientId) = some c then 1 else 0) =
        (if cid = c then 1 else 0) := by
      by_cases hcc : cid = c
      · rw [if_pos hcc, if_pos (by rw [hcc])]
      · rw [if_neg hcc, if_neg (by simpa using hcc)]
    omega
  have hmemfin : ∀ o ∈ ms.tiles.set tile (some cid),
      o ∈ ms.tiles.set tile none ∨ o = some cid := by
    intro o ho
    rw [← hset2] at ho
    exact List.mem_or_eq_of_mem_set ho
  have hboundMid : ∀ c : ClientId,
      countOwned c (ms.tiles.set tile none) + 1 < 2 ^ 32 := by
    intro c
    have h1 := countOwned_le_length c (ms.tiles.set tile none)
    rw [hmidlen, hlen] at h1
    simp only [TILES_X, TILES_Y] at h1
    omega
  have hlen1 : (ms.tiles.set tile (some cid)).length = TILES_X * TILES_Y := by
    rw [List.length_set]
    exact hlen
  cases hos : oldSlot with
  | none =>
    rw [hos] at hslot hmid
    have hpc1 : ∀ p ∈ ms.clients,
        p.2.current_count = countOwned p.1 (ms.tiles.set tile none) ∧
          0 < p.2.current_count := by
      intro p hp
      have h1 := hpc p hp
      have hm := hmid p.1
      rw [if_neg (by simp)] at hm
      omega
    have hcl1 : ∀ o ∈ ms.tiles.set tile none, ∀ x : ClientId, o = some x →
        x ∈ ms.clients.map Prod.fst := by
      intro o ho x hx
      rcases List.mem_or_eq_of_mem_set ho with ho' | rfl
      · exact hcl o ho' x hx
      · exact absurd hx (by simp)
    obtain ⟨hstrong, htiles⟩ := upsert_blit_strong (ms.tiles.set tile (some cid))
      (ms.tiles.set tile none) ms.clients cid time name hnd hpc1 hcl1 hfin
      hmemfin hboundMid hlen1
    unfold ownership_step
    rw [hslot]
    dsimp only
    exact ⟨_, _, rfl, htiles, hstrong⟩
  | some old =>
    rw [hos] at hslot hmid
    have holdmem : (some old) ∈ ms.tiles := List.get?_mem hslot
    have holdkeys : old ∈ ms.clients.map Prod.fst := hcl _ holdmem old rfl
    obtain ⟨oldSt, holdSt⟩ :=
      Option.isSome_iff_exists.mp ((alGet_isSome_iff ms.clients old).mpr holdkeys)
    have holdmemc : (old, oldSt) ∈ ms.clients := alGet_eq_some_mem _ _ _ holdSt
    have hocc : oldSt.current_count = countOwned old ms.tiles := (hpc _ holdmemc).1
    have hposold : 0 < countOwned old ms.tiles := (countOwned_pos_iff _ _).mpr holdmem
    have hub : countOwned old ms.tiles ≤ TILES_X * TILES_Y := by
      have := countOwned_le_length old ms.tiles
      rw [hlen] at this
      exact this
    have hsub : u32sub1 oldSt.current_count = countOwned old ms.tiles - 1 := by
      rw [hocc]
      refine u32sub1_eq _ hposold ?_
      simp only [TILES_X, TILES_Y] at hub
      omega
    have hcmid : countOwned old (ms.tiles.set tile none) =
        countOwned old ms.tiles - 1 := by
      have hm := hmid old
      rw [if_pos rfl] at hm
      omega
    have hclkeys : (alModify ms.clients old fun st =>
        { st with current_count := u32sub1 oldSt.current_count }).map Prod.fst =
          ms.clients.map Prod.fst := alModify_keys ..
    have hclnd : ((alModify ms.clients old fun st =>
        { st with current_count := u32sub1 oldSt.current_count }).map
          Prod.fst).Nodup := by
      rw [hclkeys]
      exact hnd
    have hclcounts : ∀ p ∈ (alModify ms.clients old fun st =>
        { st with current_count := u32sub1 oldSt.current_count }),
        (p.1 = old → p.2.current_count = u32sub1 oldSt.current_count) ∧
          (p.1 ≠ old →
            p.2.current_count = countOwned p.1 (ms.tiles.set tile none) ∧
              0 < p.2.current_count) := by
      intro p hp
      obtain ⟨q, hq, hpq⟩ := mem_alModify_elim _ _ _ p hp
      by_cases hqo : q.1 = old
      · rw [if_pos hqo] at hpq
        subst hpq
        exact ⟨fun _ => rfl, fun hne => absurd hqo hne⟩
      · rw [if_neg hqo] at hpq
        rw [hpq]
        refine ⟨fun hq1 => absurd hq1 hqo, fun _ => ?_⟩
        have h1 := hpc q hq
        have hm := hmid q.1
        rw [if_neg (by simpa using fun h : old = q.1 => hqo h.symm)] at hm
        omega
    by_cases hc0 : u32sub1 oldSt.current_count = 0
    · -- the old owner loses its last tile: its record is removed
      have hone : countOwned old ms.tiles = 1 := by
        simp only [TILES_X, TILES_Y] at hub
        omega
      have hmidzero : countOwned old (ms.tiles.set tile none) = 0 := by omega
      have hnotmid : (some old) ∉ ms.tiles.set tile none := by
        rw [← countOwned_pos_iff] at *
        omega
      have hnd1 : (((alRemove (alModify ms.clients old fun st =>
          { st with current_count := u32sub1 oldSt.current_count }) old)).map
            Prod.fst).Nodup :=
        alRemove_keys_nodup _ _ hclnd
      have hpc1 : ∀ p ∈ (alRemove (alModify ms.clients old fun st =>
          { st with current_count := u32sub1 oldSt.current_count }) old),
          p.2.current_count = countOwned p.1 (ms.tiles.set tile none) ∧
            0 < p.2.current_count := by
        intro p hp
        rw [mem_alRemove] at hp
        exact ((hclcounts p hp.1).2 hp.2)
      have hcl1 : ∀ o ∈ ms.tiles.set tile none, ∀ x : ClientId, o = some x →
          x ∈ ((alRemove (alModify ms.clients old fun st =>
            { st with current_count := u32sub1 oldSt.current_count }) old)).map
              Prod.fst := by
        intro o ho x hx
        subst hx
        have hxo : x ≠ old := by
          intro hxeq
          subst hxeq
          exact hnotmid ho
        rcases List.mem_or_eq_of_mem_set ho with ho' | habs
        · have hxkeys : x ∈ ms.clients.map Prod.fst := hcl _ ho' x rfl
          rw [← alGet_isSome_iff] at hxkeys ⊢
          rw [alGet_alRemove, if_neg hxo, alGet_alModify, if_neg hxo]
          exact hxkeys
        · exact absurd habs (by simp)
      obtain ⟨hstrong, htiles⟩ := upsert_blit_strong (ms.tiles.set tile (some cid))
        (ms.tiles.set tile none) _ cid time name hnd1 hpc1 hcl1 hfin
        hmemfin hboundMid hlen1
      unfold ownership_step
      rw [hslot]
      dsimp only
      rw [holdSt]
      dsimp only
      rw [if_pos hc0]
      exact ⟨_, _, rfl, htiles, hstrong⟩
    · -- the old owner keeps other tiles: only its count is decremented
      have hpc1 : ∀ p ∈ (alModify ms.clients old fun st =>
          { st with current_count := u32sub1 oldSt.current_count }),
          p.2.current_count = countOwned p.1 (ms.tiles.set tile none) ∧
            0 < p.2.current_count := by
        intro p hp
        by_cases hpo : p.1 = old
        · have hcval := (hclcounts p hp).1 hpo
          rw [hcval, hpo, hsub, hcmid]
          constructor
          · rfl
          · rw [hsub] at hc0
            omega
        · exact (hclcounts p hp).2 hpo
      have hcl1 : ∀ o ∈ ms.tiles.set tile none, ∀ x : ClientId, o = some x →
          x ∈ (alModify ms.clients old fun st =>
            { st with current_count := u32sub1 oldSt.current_count }).map
              Prod.fst := by
        intro o ho x hx
        rw [hclkeys]
        rcases List.mem_or_eq_of_mem_set ho with ho' | habs
        · exact hcl o ho' x hx
        · rw [habs] at hx
          exact absurd hx (by simp)
      obtain ⟨hstrong, htiles⟩ := upsert_blit_strong (ms.tiles.set tile (some cid))
        (ms.tiles.set tile none) _ cid time name hclnd hpc1 hcl1 hfin
        hmemfin hboundMid hlen1
      unfold ownership_step
      rw [hslot]
      dsimp only
      rw [holdSt]
      dsimp only
      rw [if_neg hc0]
      exact ⟨_, _, rfl, htiles, hstrong⟩

instance decOwnerAt (keys : List ClientId) :
    (o : Option ClientId) → Decidable (∀ c : ClientId, o = some c → c ∈ keys)
  | none => isTrue (by simp)
  | some c =>
    decidable_of_iff (c ∈ keys)
      ⟨fun h c' hc' => (Option.some_injective _ hc') ▸ h, fun h => h c rfl⟩

instance (ms : MetaState) : Decidable (CountInv ms) := by
  unfold CountInv
  infer_instance

instance (ms : MetaState) : Decidable (OwnerInv ms) := by
  unfold OwnerInv
  infer_instance

instance (ms : MetaState) : Decidable (StrongInv ms) := by
  unfold StrongInv
  infer_instance

/-- C4 counterexample: the two §8 predicates alone are not preserved by the
ownership-accounting step.  In this concrete state both predicates hold, but
client 1 is registered with `current_count = 0` while owning tile 1; a blit
of tile 1 by a new client 2 decrements the `u32` count of client 1 below
zero (wrapping), so client 1 is not removed and both predicates fail
afterwards. -/
theorem blit_accounting_counterexample :
    CountInv ⟨some 0 :: some 1 :: List.replicate 46 none,
        [(0, ⟨2, 2, 0, "a"⟩), (1, ⟨0, 0, 0, "b"⟩)]⟩ ∧
      OwnerInv ⟨some 0 :: some 1 :: List.replicate 46 none,
        [(0, ⟨2, 2, 0, "a"⟩), (1, ⟨0, 0, 0, "b"⟩)]⟩ ∧
      ownership_step ⟨some 0 :: some 1 :: List.replicate 46 none,
          [(0, ⟨2, 2, 0, "a"⟩), (1, ⟨0, 0, 0, "b"⟩)]⟩ 2 1 0 "" =
        some (⟨some 0 :: some 2 :: List.replicate 46 none,
          [(2, ⟨1, 1, (0 : ℚ) * 0.999 + 0 * 0.001, ""⟩), (0, ⟨2, 2, 0, "a"⟩),
            (1, ⟨4294967295, 0, 0, "b"⟩)]⟩,
          false) ∧
      ¬(CountInv ⟨some 0 :: some 2 :: List.replicate 46 none,
          [(2, ⟨1, 1, (0 : ℚ) * 0.999 + 0 * 0.001, ""⟩), (0, ⟨2, 2, 0, "a"⟩),
            (1, ⟨4294967295, 0, 0, "b"⟩)]⟩ ∧
        OwnerInv ⟨some 0 :: some 2 :: List.replicate 46 none,
          [(2, ⟨1, 1, (0 : ℚ) * 0.999 + 0 * 0.001, ""⟩), (0, ⟨2, 2, 0, "a"⟩),
            (1, ⟨4294967295, 0, 0, "b"⟩)]⟩) := by
  refine ⟨by decide, by decide, rfl, ?_⟩
  intro hcon
  exact absurd hcon.1 (by decide)

/-- C4 (amended): from any state satisfying the per-client accounting
invariant (`StrongInv`: distinct client keys, each client's `current_count`
positive and equal to the number of slots it owns, every owner registered),
the ownership-accounting step of a `BlitTile` event succeeds and both §8
predicates — the counts sum to the number of `Some` slots, and the key set
equals the set of distinct owners — hold afterwards, with the strengthened
invariant preserved. -/
theorem blit_accounting_invariants (ms : MetaState) (cid : ClientId) (tile : Nat)
    (time : ℚ) (name : String) (h : StrongInv ms) (ht : tile < TILES_X * TILES_Y) :
    ∃ ms' nc, ownership_step ms cid tile time name = some (ms', nc) ∧
      StrongInv ms' ∧ CountInv ms' ∧ OwnerInv ms' := by
  obtain ⟨ms', nc, heq, -, hstrong⟩ :=
    ownership_step_preserves ms cid tile time name h ht
  obtain ⟨hc, ho⟩ := StrongInv_implies ms' hstrong
  exact ⟨ms', nc, heq, hstrong, hc, ho⟩

/-- Witness for C4 (amended): the empty accumulator state satisfies the
invariant, and a first blit preserves it. -/
theorem blit_accounting_invariants_witness :
    ∃ ms' nc, ownership_step ⟨List.replicate 48 none, []⟩ 5 0 0 "" = some (ms', nc) ∧
      StrongInv ms' ∧ CountInv ms' ∧ OwnerInv ms' :=
  blit_accounting_invariants ⟨List.replicate 48 none, []⟩ 5 0 0 "" (by decide)
    (by decide)

/-- C10: when a `BlitTile` event's client already owns the target tile with
`current_count` exactly 1, the decrement removes its record and the upsert
recreates it fresh: afterwards `current_count = 1`, `total_count = 1`, the
EMA is re-seeded so `average_time` equals this event's `time`, and the name
is this event's name — all previous history is discarded. -/
theorem blit_singleton_owner_reset (ms : MetaState) (cid : ClientId) (tile : Nat)
    (time : ℚ) (name : String) (st : OClientState)
    (hslot : ms.tiles.get? tile = some (some cid))
    (hget : alGet ms.clients cid = some st)
    (hcc : st.current_count = 1) :
    ∃ ms' nc, ownership_step ms cid tile time name = some (ms', nc) ∧
      alGet ms'.clients cid = some ⟨1, 1, time, name⟩ := by
  have hzero : u32sub1 st.current_count = 0 := by
    rw [hcc]
    unfold u32sub1
    norm_num
  have hget1 : alGet (alRemove (alModify ms.clients cid fun s =>
      { s with current_count := u32sub1 st.current_count }) cid) cid = none := by
    rw [alGet_alRemove, if_pos rfl]
  have h01 : u32add1 (0 : Nat) = 1 := by
    unfold u32add1
    norm_num
  have havg : time * (0.999 : ℚ) + time * (0.001 : ℚ) = time := by
    rw [← mul_add]
    norm_num
  have hnm : (if ("" : String) ≠ name then name else "") = name := by
    by_cases hn : ("" : String) = name
    · rw [if_neg (by simpa using hn), ← hn]
    · rw [if_pos hn]
  unfold ownership_step
  rw [hslot]
  dsimp only
  rw [hget]
  dsimp only
  rw [if_pos hzero]
  unfold upsert_blit
  rw [hget1]
  refine ⟨_, _, rfl, ?_⟩
  dsimp only
  rw [alGet_cons', if_pos rfl]
  simp only [updateStats]
  rw [h01, havg, hnm]

/-- Witness for C10: a concrete client owning its single tile is reset to a
fresh record carrying only this event's time and name. -/
theorem blit_singleton_owner_reset_witness :
    ∃ ms' nc, ownership_step ⟨some 4 :: List.replicate 47 none,
        [(4, ⟨1, 10, 99, "old"⟩)]⟩ 4 0 7 "w" = some (ms', nc) ∧
      alGet ms'.clients 4 = some ⟨1, 1, 7, "w"⟩ :=
  blit_singleton_owner_reset ⟨some 4 :: List.replicate 47 none,
      [(4, ⟨1, 10, 99, "old"⟩)]⟩ 4 0 7 "w" ⟨1, 10, 99, "old"⟩ rfl rfl rfl

/-- Under the real stride (`stride ≥ 4·TILE_SIZE`) the byte bases of
distinct linear pixel indices are at least 4 apart, so the three bytes
written for one pixel never touch another pixel's bytes. -/
theorem baseOf_sep (offset stride ax ay : Nat) (hstride : 4 * TILE_SIZE ≤ stride)
    (m m' : Nat) (hm : m < m') :
    baseOf offset stride ax ay m + 4 ≤ baseOf offset stride ax ay m' := by
  unfold baseOf pixByte
  simp only [TILE_SIZE] at hstride ⊢
  have hq : m / 128 ≤ m' / 128 := Nat.div_le_div_right (le_of_lt hm)
  rcases Nat.eq_or_lt_of_le hq with heq | hlt
  · rw [heq]
    omega
  · have h1 : (ay * 128 + m / 128) * stride + stride ≤
        (ay * 128 + m' / 128) * stride := by
      calc (ay * 128 + m / 128) * stride + stride
          = (ay * 128 + m / 128 + 1) * stride := by ring
        _ ≤ (ay * 128 + m' / 128) * stride :=
            Nat.mul_le_mul_right _ (by omega)
    omega

/-- Unfolding equation of one blit-loop iteration. -/
theorem blitAux_succ (pixels : List Vec3) (offset stride ax ay n j : Nat)
    (buf : Nat → Nat) :
    blitAux pixels offset stride ax ay (n + 1) j buf =
      match pixels.get? j with
      | none => none
      | some px =>
        blitAux pixels offset stride ax ay n (j + 1)
          (writePix buf (baseOf offset stride ax ay j) px) := rfl

/-- Full specification of the blit loop: when the pixel vector covers the
visited range, the loop succeeds, writes the three BGR bytes of every
visited pixel, and leaves every other byte unchanged. -/
theorem blitAux_spec (pixels : List Vec3) (offset stride ax ay : Nat)
    (hstride : 4 * TILE_SIZE ≤ stride) :
    ∀ n j buf, j + n ≤ pixels.length →
      ∃ buf', blitAux pixels offset stride ax ay n j buf = some buf' ∧
        (∀ m px, j ≤ m → m < j + n → pixels.get? m = some px →
          buf' (baseOf offset stride ax ay m) = toU8 (px.z * 255) ∧
          buf' (baseOf offset stride ax ay m + 1) = toU8 (px.y * 255) ∧
          buf' (baseOf offset stride ax ay m + 2) = toU8 (px.x * 255)) ∧
        (∀ a, (∀ m, j ≤ m → m < j + n →
            a ≠ baseOf offset stride ax ay m ∧
            a ≠ baseOf offset stride ax ay m + 1 ∧
            a ≠ baseOf offset stride ax ay m + 2) →
          buf' a = buf a) := by
  intro n
  induction n with
  | zero =>
    intro j buf _
    exact ⟨buf, rfl, fun m px h1 h2 _ => absurd h2 (by omega), fun a _ => rfl⟩
  | succ n ih =>
    intro j buf hjn
    have hj : j < pixels.length := by omega
    obtain ⟨px0, hpx0⟩ : ∃ p, pixels.get? j = some p := by
      rw [List.get?_eq_get hj]
      exact ⟨_, rfl⟩
    obtain ⟨buf', heq, hbytes, hun⟩ :=
      ih (j + 1) (writePix buf (baseOf offset stride ax ay j) px0) (by omega)
    refine ⟨buf', ?_, ?_, ?_⟩
    · rw [blitAux_succ, hpx0]
      exact heq
    · intro m px h1 h2 hget
      rcases Nat.eq_or_lt_of_le h1 with rfl | hjm
      · have hpx : px0 = px := by
          rw [hpx0] at hget
          exact Option.some.inj hget
        subst hpx
        have hsep : ∀ m', j + 1 ≤ m' →
            baseOf offset stride ax ay j + 4 ≤ baseOf offset stride ax ay m' :=
          fun m' h' => baseOf_sep offset stride ax ay hstride j m' (by omega)
        have e0 := hun (baseOf offset stride ax ay j) fun m' hm1 _ => by
          have := hsep m' hm1
          omega
        have e1 := hun (baseOf offset stride ax ay j + 1) fun m' hm1 _ => by
          have := hsep m' hm1
          omega
        have e2 := hun (baseOf offset stride ax ay j + 2) fun m' hm1 _ => by
          have := hsep m' hm1
          omega
        refine ⟨?_, ?_, ?_⟩
        · rw [e0]
          unfold writePix
          rw [if_pos rfl]
        · rw [e1]
          unfold writePix
          rw [if_neg (by omega), if_pos rfl]
        · rw [e2]
          unfold writePix
          rw [if_neg (by omega), if_neg (by omega), if_pos rfl]
      · exact hbytes m px hjm (by omega) hget
    · intro a ha
      have ha' : ∀ m, j + 1 ≤ m → m < j + 1 + n →
          a ≠ baseOf offset stride ax ay m ∧
          a ≠ baseOf offset stride ax ay m + 1 ∧
          a ≠ baseOf offset stride ax ay m + 2 :=
        fun m h1 h2 => ha m (by omega) (by omega)
      rw [hun a ha']
      have hj0 := ha j (le_refl j) (by omega)
      unfold writePix
      rw [if_neg hj0.1, if_neg hj0.2.1, if_neg hj0.2.2]

/-- The byte base of linear index `y·TILE_SIZE + x` is the pixel byte
offset of `(x, y)`. -/
theorem baseOf_eq (offset stride ax ay y x : Nat) (hx : x < TILE_SIZE) :
    baseOf offset stride ax ay (y * TILE_SIZE + x) =
      pixByte offset stride ax ay y x := by
  unfold baseOf
  have h1 : (y * TILE_SIZE + x) / TILE_SIZE = y := by
    simp only [TILE_SIZE] at *
    omega
  have h2 : (y * TILE_SIZE + x) % TILE_SIZE = x := by
    simp only [TILE_SIZE] at *
    omega
  rw [h1, h2]

/-- C5: each submitted result maps to its `color` when present, else white
on `hit`, else black; and after the accumulator blits a tile with pixel
vector `P`, the framebuffer bytes at
`offset + (addr.y·TILE_SIZE + y)·stride + (addr.x·TILE_SIZE + x)·4` hold
`(B,G,R) = (P.z, P.y, P.x)·255` saturated to `u8`, with the fourth byte of
every pixel left unchanged. -/
theorem blit_pixel_layout (offset stride ts : Nat) (acc : Accumulator)
    (p : BlitTileEvent) (hstride : 4 * TILE_SIZE ≤ stride)
    (hlen : p.pixels.length = TILE_SIZE * TILE_SIZE)
    (hms : StrongInv acc.meta_state) (hax : p.addr.x < TILES_X)
    (hay : p.addr.y < TILES_Y) :
    (∀ r c, r.color = some c → resultToPixel r = c) ∧
    (∀ r : Result, r.color = none → r.hit = true → resultToPixel r = ⟨1, 1, 1⟩) ∧
    (∀ r : Result, r.color = none → r.hit = false → resultToPixel r = ⟨0, 0, 0⟩) ∧
    ∃ acc', processBlit offset stride ts acc p = some acc' ∧
      ∀ x y px, x < TILE_SIZE → y < TILE_SIZE →
        p.pixels.get? (y * TILE_SIZE + x) = some px →
        acc'.data (pixByte offset stride p.addr.x p.addr.y y x) =
          toU8 (px.z * 255) ∧
        acc'.data (pixByte offset stride p.addr.x p.addr.y y x + 1) =
          toU8 (px.y * 255) ∧
        acc'.data (pixByte offset stride p.addr.x p.addr.y y x + 2) =
          toU8 (px.x * 255) ∧
        acc'.data (pixByte offset stride p.addr.x p.addr.y y x + 3) =
          acc.data (pixByte offset stride p.addr.x p.addr.y y x + 3) := by
  refine ⟨?_, ?_, ?_, ?_⟩
  · intro r c h
    simp [resultToPixel, h]
  · intro r h h'
    simp [resultToPixel, h, h']
  · intro r h h'
    simp [resultToPixel, h, h']
  · obtain ⟨buf', hbeq, hbytes, hun⟩ :=
      blitAux_spec p.pixels offset stride p.addr.x p.addr.y hstride
        (TILE_SIZE * TILE_SIZE) 0 acc.data (by rw [hlen]; omega)
    have hbp : blitPixels p.pixels offset stride p.addr.x p.addr.y acc.data =
        some buf' := hbeq
    obtain ⟨ms', nc, hos, -, -⟩ :=
      ownership_step_preserves acc.meta_state p.client_id
        (p.addr.y * TILES_X + p.addr.x) p.time p.name hms
        (by simp only [TILES_X, TILES_Y] at *; omega)
    have hpb : processBlit offset stride ts acc p = some
        { data := buf'
          frame_done :=
            if p.addr.x = TILES_X - 1 ∧ p.addr.y = TILES_Y - 1 then true
            else acc.frame_done
          meta_state := ms'
          meta_actions := acc.meta_actions ++
            [⟨ts, .blitTile ⟨p.client_id, p.addr.y * TILES_X + p.addr.x, p.time,
              if nc then some p.name else none⟩⟩] } := by
      unfold processBlit
      rw [hbp]
      dsimp only
      rw [hos]
    refine ⟨_, hpb, ?_⟩
    intro x y px hx hy hget
    dsimp only
    have hb := hbytes (y * TILE_SIZE + x) px (Nat.zero_le _)
      (by simp only [TILE_SIZE] at *; omega) hget
    rw [baseOf_eq offset stride p.addr.x p.addr.y y x hx] at hb
    refine ⟨hb.1, hb.2.1, hb.2.2, ?_⟩
    refine hun (pixByte offset stride p.addr.x p.addr.y y x + 3) ?_
    intro m hm0 hmn
    rw [← baseOf_eq offset stride p.addr.x p.addr.y y x hx]
    rcases lt_trichotomy m (y * TILE_SIZE + x) with h | h | h
    · have := baseOf_sep offset stride p.addr.x p.addr.y hstride m
        (y * TILE_SIZE + x) h
      omega
    · rw [h]
      omega
    · have := baseOf_sep offset stride p.addr.x p.addr.y hstride
        (y * TILE_SIZE + x) m h
      omega

theorem blit_pixel_layout_witness :
    4 * TILE_SIZE ≤ 512 ∧
    (List.replicate (TILE_SIZE * TILE_SIZE) (⟨0, 0, 0⟩ : Vec3)).length =
      TILE_SIZE * TILE_SIZE ∧
    StrongInv ⟨List.replicate 48 none, []⟩ ∧
    (0 : Nat) < TILES_X ∧ (3 : Nat) < TILES_Y ∧
    ((∀ r c, r.color = some c → resultToPixel r = c) ∧
      (∀ r : Result, r.color = none → r.hit = true → resultToPixel r = ⟨1, 1, 1⟩) ∧
      (∀ r : Result, r.color = none → r.hit = false → resultToPixel r = ⟨0, 0, 0⟩) ∧
      ∃ acc', processBlit 0 512 0
          ⟨fun _ => 0, false, ⟨List.replicate 48 none, []⟩, []⟩
          ⟨7, ⟨1, 0, 3⟩, "w", List.replicate (TILE_SIZE * TILE_SIZE) ⟨0, 0, 0⟩, 0⟩ =
          some acc' ∧
        ∀ x y px, x < TILE_SIZE → y < TILE_SIZE →
          (List.replicate (TILE_SIZE * TILE_SIZE) (⟨0, 0, 0⟩ : Vec3)).get?
              (y * TILE_SIZE + x) = some px →
          acc'.data (pixByte 0 512 0 3 y x) = toU8 (px.z * 255) ∧
          acc'.data (pixByte 0 512 0 3 y x + 1) = toU8 (px.y * 255) ∧
          acc'.data (pixByte 0 512 0 3 y x + 2) = toU8 (px.x * 255) ∧
          acc'.data (pixByte 0 512 0 3 y x + 3) = 0) :=
  ⟨by decide, by simp, by decide, by decide, by decide,
    blit_pixel_layout 0 512 0 ⟨fun _ => 0, false, ⟨List.replicate 48 none, []⟩, []⟩
      ⟨7, ⟨1, 0, 3⟩, "w", List.replicate (TILE_SIZE * TILE_SIZE) ⟨0, 0, 0⟩, 0⟩
      (by decide) (by simp) (by decide) (by decide) (by decide)⟩

/-- C7: the code violates the claim — a `SubmitResults` whose result vector
is shorter than `TILE_SIZE²` is neither rejected nor truncated: the
scheduler forwards the mapped pixel vector unchanged (an empty submission
maps to an empty pixel vector yet still produces a `BlitTile` event), and
the accumulator's blit loop then reads `pixels[0]` out of bounds, a
panicking `Vec` index (`none`). -/
theorem short_submission_out_of_bounds :
    (step ⟨fun _ => 0, fun _ => 0⟩ .ok 5
        ⟨[(3, ⟨"w"⟩)], [], [⟨3, ⟨1, 0, 0⟩, 10, 5⟩], 2, 1, Scene.default, [], []⟩
        (.event ⟨3, .request (.submitResults [])⟩)).2 =
      [Effect.response 3 .submitResults,
        Effect.output [ChanOp.blockingSend
          ⟨3, ⟨1, 0, 0⟩, "w", [], ((5 - 5 : Nat) : ℚ)⟩]] ∧
    List.map resultToPixel [] = ([] : List Vec3) ∧
    blitPixels [] 0 512 0 0 (fun _ => 0) = none ∧
    processBlit 0 512 0 ⟨fun _ => 0, false, ⟨List.replicate 48 none, []⟩, []⟩
      ⟨3, ⟨1, 0, 0⟩, "w", [], 0⟩ = none :=
  ⟨rfl, rfl, rfl, rfl⟩

/-- C8 (counterexample): with the output channel full, the scheduler still
emits the `BlitTile` event as a single plain blocking send; the trace
`send_realtime` would produce on a full channel — a failed `try_send`, a
logged warning, then the blocking send — never occurs. -/
theorem scheduler_send_counterexample :
    (step ⟨fun _ => 0, fun _ => 0⟩ .full 5
        ⟨[(3, ⟨"w"⟩)], [], [⟨3, ⟨1, 0, 0⟩, 10, 5⟩], 2, 1, Scene.default, [], []⟩
        (.event ⟨3, .request (.submitResults [])⟩)).2 =
      [Effect.response 3 .submitResults,
        Effect.output [ChanOp.blockingSend
          ⟨3, ⟨1, 0, 0⟩, "w", [], ((5 - 5 : Nat) : ℚ)⟩]] ∧
    [ChanOp.blockingSend ⟨3, ⟨1, 0, 0⟩, "w", [], ((5 - 5 : Nat) : ℚ)⟩] ≠
      (send_realtime ChanState.full
        ⟨3, ⟨1, 0, 0⟩, "w", [], ((5 - 5 : Nat) : ℚ)⟩ "OutputEvent").1 := by
  refine ⟨rfl, ?_⟩
  intro h
  simp [send_realtime] at h

/-- C8 (amended): when a `SubmitResults` from a registered client matches an
in-flight tile, the scheduler responds, removes the tile and emits the
`BlitTile` event with a plain blocking `mpsc::SyncSender::send` — a single
`blockingSend`, whatever the channel state — which differs from the trace
the (unused) `send_realtime` utility would produce in every channel
state. -/
theorem scheduler_send_amended (prims : TrigPrims) (chan : ChanState)
    (now : Nat) (s : ServerState) (cid : ClientId) (results : List Result)
    (client : ClientState) (t : InFlightTile) (rest : List InFlightTile)
    (hc : alGet s.clients cid = some client)
    (hr : removeFirst (fun u => u.client_id == cid) s.in_flight_tiles =
      some (t, rest)) :
    step prims chan now s (.event ⟨cid, .request (.submitResults results)⟩) =
      ({ s with in_flight_tiles := rest },
        [Effect.response cid .submitResults,
          Effect.output (sendBlit chan
            ⟨cid, t.addr, client.name, results.map resultToPixel,
              ((now - t.requested_at : Nat) : ℚ)⟩)]) ∧
    sendBlit chan ⟨cid, t.addr, client.name, results.map resultToPixel,
        ((now - t.requested_at : Nat) : ℚ)⟩ =
      [ChanOp.blockingSend ⟨cid, t.addr, client.name,
        results.map resultToPixel, ((now - t.requested_at : Nat) : ℚ)⟩] ∧
    ∀ c : String,
      sendBlit chan ⟨cid, t.addr, client.name, results.map resultToPixel,
          ((now - t.requested_at : Nat) : ℚ)⟩ ≠
        (send_realtime chan ⟨cid, t.addr, client.name,
          results.map resultToPixel, ((now - t.requested_at : Nat) : ℚ)⟩ c).1 := by
  refine ⟨?_, rfl, ?_⟩
  · dsimp only [step]
    rw [hc, hr]
  · intro c h
    cases chan <;> simp [sendBlit, send_realtime] at h

theorem scheduler_send_amended_witness :
    alGet [(3, (⟨"w"⟩ : ClientState))] 3 = some ⟨"w"⟩ ∧
    removeFirst (fun u => u.client_id == 3)
        [(⟨3, ⟨1, 0, 0⟩, 10, 5⟩ : InFlightTile)] =
      some (⟨3, ⟨1, 0, 0⟩, 10, 5⟩, []) ∧
    (step ⟨fun _ => 0, fun _ => 0⟩ .ok 5
        ⟨[(3, ⟨"w"⟩)], [], [⟨3, ⟨1, 0, 0⟩, 10, 5⟩], 2, 1, Scene.default, [], []⟩
        (.event ⟨3, .request (.submitResults [])⟩) =
      (⟨[(3, ⟨"w"⟩)], [], [], 2, 1, Scene.default, [], []⟩,
        [Effect.response 3 .submitResults,
          Effect.output (sendBlit .ok
            ⟨3, ⟨1, 0, 0⟩, "w", [], ((5 - 5 : Nat) : ℚ)⟩)]) ∧
      sendBlit .ok ⟨3, ⟨1, 0, 0⟩, "w", [], ((5 - 5 : Nat) : ℚ)⟩ =
        [ChanOp.blockingSend ⟨3, ⟨1, 0, 0⟩, "w", [], ((5 - 5 : Nat) : ℚ)⟩] ∧
      ∀ c : String,
        sendBlit .ok ⟨3, ⟨1, 0, 0⟩, "w", [], ((5 - 5 : Nat) : ℚ)⟩ ≠
          (send_realtime .ok
            ⟨3, ⟨1, 0, 0⟩, "w", [], ((5 - 5 : Nat) : ℚ)⟩ c).1) :=
  ⟨rfl, rfl,
    scheduler_send_amended ⟨fun _ => 0, fun _ => 0⟩ .ok 5
      ⟨[(3, ⟨"w"⟩)], [], [⟨3, ⟨1, 0, 0⟩, 10, 5⟩], 2, 1, Scene.default, [], []⟩
      3 [] ⟨"w"⟩ ⟨3, ⟨1, 0, 0⟩, 10, 5⟩ [] rfl rfl⟩

/-- C9: `regenerate_scene` stamps the scene with the current frame and
produces one sphere per scene element, in element order, with radius `r`
and center `(x·cos a + z·sin a + off.x·d, y + off.y·d,
z·cos a − x·sin a + off.z·d)` where `a = frame·0.05` and
`d = 1000/(frame+5)`. -/
theorem scene_regeneration_formula (prims : TrigPrims) (s : ServerState) :
    (regenerate_scene prims s).scene.frame = s.current_frame ∧
    (regenerate_scene prims s).scene.spheres.length = s.scene_elements.length ∧
    ∀ i e off, s.scene_elements.get? i = some e →
      s.random_displacements.get? i = some off →
      (regenerate_scene prims s).scene.spheres.get? i = some
        ⟨⟨e.x * prims.fcos ((s.current_frame : ℚ) * 0.05) +
            e.z * prims.fsin ((s.current_frame : ℚ) * 0.05) +
            off.x * (1000 / ((s.current_frame : ℚ) + 5)),
          e.y + off.y * (1000 / ((s.current_frame : ℚ) + 5)),
          e.z * prims.fcos ((s.current_frame : ℚ) * 0.05) -
            e.x * prims.fsin ((s.current_frame : ℚ) * 0.05) +
            off.z * (1000 / ((s.current_frame : ℚ) + 5))⟩, e.r⟩ := by
  refine ⟨rfl, ?_, ?_⟩
  · unfold regenerate_scene
    dsimp only
    rw [List.length_map, List.enum_length]
  · intro i e off he hoff
    have hofflt : i < s.random_displacements.length := by
      by_contra hge
      rw [List.get?_eq_none.mpr (by omega)] at hoff
      exact Option.noConfusion hoff
    unfold regenerate_scene
    dsimp only
    rw [List.get?_map, List.enum_get?, he, Option.map_some', Option.map_some']
    dsimp only
    rw [List.getD_eq_get?, hoff]
    rfl

theorem scene_regeneration_formula_witness :
    ([(⟨1, 2, 3, 4⟩ : SceneElement)].get? 0 = some ⟨1, 2, 3, 4⟩) ∧
    ([(⟨5, 6, 7⟩ : Vec3)].get? 0 = some ⟨5, 6, 7⟩) ∧
    (regenerate_scene ⟨fun _ => 0, fun _ => 1⟩
        (initState [⟨1, 2, 3, 4⟩] [⟨5, 6, 7⟩])).scene.spheres.get? 0 = some
      ⟨⟨(1 : ℚ) * 1 + 3 * 0 + 5 * (1000 / (((0 : Nat) : ℚ) + 5)),
        2 + 6 * (1000 / (((0 : Nat) : ℚ) + 5)),
        3 * 1 - 1 * 0 + 7 * (1000 / (((0 : Nat) : ℚ) + 5))⟩, 4⟩ :=
  ⟨rfl, rfl,
    (scene_regeneration_formula ⟨fun _ => 0, fun _ => 1⟩
      (initState [⟨1, 2, 3, 4⟩] [⟨5, 6, 7⟩])).2.2 0 ⟨1, 2, 3, 4⟩ ⟨5, 6, 7⟩ rfl rfl⟩

end RayServer
